import Mathlib

/-!
Verification development for the source-map utility of this repository
(`src/utils/sourceMap.ts`, class `SourceMapUtil`).

The TypeScript source is shallowly embedded here over `List Char` / `String`:

* the single regular expression
  `/\/\/(#|@) sourceMappingURL=(.+?)\s*$/m`
  is embedded as an explicit backtracking matcher (`scanSM`) that follows
  ECMAScript matching semantics for exactly this pattern: leftmost match,
  literal prefix `//` + (`#`|`@`) + `" sourceMappingURL="`, a lazy group
  `(.+?)` whose `.` matches any character except the four ECMAScript line
  terminators (LF, CR, U+2028, U+2029), then greedy `\s*` with backtracking
  and the multiline anchor `$` (end of input or a position before any line
  terminator);
* `JSON.parse` / `JSON.stringify` are embedded by an executable JSON reader
  and writer on an ordered key/value representation (`JValue`); JavaScript
  objects obtained from `JSON.parse` keep insertion order, assignment to an
  existing key keeps its position, assignment to a fresh key appends, and
  `delete` removes the key, which is exactly how `objSet` / `objDelete`
  behave.  Number lexemes are re-rendered on `JSON.stringify` through IEEE-754
  binary64 semantics: `lexToF64` performs the correctly-rounded (round half to
  even) decimal-to-double conversion, with overflow to infinity and subnormal
  underflow, and `renderNum` implements the ECMAScript `Number::toString`
  shortest-round-trip digit search plus `JSON.stringify`'s rendering of
  non-finite doubles as `null` (lone-surrogate string escapes are the one
  unexercised corner left unmodelled);
* Node's `path` module (posix flavour, the platform whose separator is `/`)
  is embedded by `posixResolveL`, `posixRelativeL`, `posixJoinL`,
  `posixNormalizeL` and `nodeBasename`.  Node's `path.relative` resolves
  both arguments against `process.cwd()`; that process state is made an
  explicit `cwd` argument of the embedded functions;
* Node's legacy `url.parse` / `url.format` are embedded by `urlParse` /
  `urlFormat` over `Option`, covering the general pipeline: backslash-to-slash
  normalization before the first splitter, `trim()`, the simple-path fast
  pattern, protocol recognition and lowercasing, the slashed/hostless protocol
  tables, the auth section split at the last `'@'` with
  `decodeURIComponent` (whose `URIError` on malformed percent-encoding
  is the `none` result), host/port split with the 255-character hostname
  cutoff and lowercasing, the legacy auto-escape table applied to the path
  section of non-`javascript:` URLs, and `url.format`'s reassembly including
  `encodeURIComponent` on auth.  Unmodelled (unreachable for the claims'
  inputs): IDN/punycode conversion, per-label hostname validation with its
  fallback re-split, IPv6 bracket handling, and the `parseQueryString` object
  mode.
-/

set_option maxRecDepth 20000

/-! ## Character classes and elementary string helpers -/

/-- ECMAScript `\s` (the whitespace class used by the regex and `trim`). -/
def isJsWs (c : Char) : Bool :=
  let n := c.toNat
  (n == 9) || (n == 10) || (n == 11) || (n == 12) || (n == 13) || (n == 32) ||
  (n == 0xa0) || (n == 0x1680) || (0x2000 ≤ n && n ≤ 0x200a) ||
  (n == 0x2028) || (n == 0x2029) || (n == 0x202f) || (n == 0x205f) ||
  (n == 0x3000) || (n == 0xfeff)

/-- ECMAScript line terminators (`\n`, `\r`, U+2028, U+2029): the `.` of a
regex matches any character except these, and the multiline `$` anchors
before them. -/
def isLineTerm (c : Char) : Bool :=
  let n := c.toNat
  (n == 10) || (n == 13) || (n == 0x2028) || (n == 0x2029)

/-- ASCII decimal digit. -/
def isDigitCh (c : Char) : Bool := (48 ≤ c.toNat) && (c.toNat ≤ 57)

/-- Drop leading JavaScript whitespace (one half of `String.prototype.trim`). -/
def jsTrimLeftL (l : List Char) : List Char := l.dropWhile isJsWs

/-- Drop trailing JavaScript whitespace (the other half of `trim`). -/
def jsTrimRightL (l : List Char) : List Char := (l.reverse.dropWhile isJsWs).reverse

/-- JavaScript `String.prototype.trim`. -/
def jsTrimL (l : List Char) : List Char := jsTrimRightL (jsTrimLeftL l)

/-- Split a character list at every occurrence of `sep`
(JavaScript `String.prototype.split` with a one-character separator). -/
def splitOnCharL (sep : Char) : List Char → List (List Char)
  | [] => [[]]
  | c :: t =>
    match splitOnCharL sep t with
    | [] => [[c]]
    | h :: r => if c = sep then [] :: h :: r else (c :: h) :: r

/-- Join chunks with `'/'` between them. -/
def intercalateSlash : List (List Char) → List Char
  | [] => []
  | [s] => s
  | s :: r => s ++ '/' :: intercalateSlash r

/-- Split at the last occurrence of `c`; `some (before, after)` excludes `c`. -/
def splitLastChar (c : Char) : List Char → Option (List Char × List Char)
  | [] => none
  | x :: t =>
    match splitLastChar c t with
    | some (b, a) => some (x :: b, a)
    | none => if x = c then some ([], t) else none

/-- Split at the last line terminator: `some (before, rest)` with `rest`
starting at that terminator (used for the backtracking extent of `\s*`
before a multiline `$`). -/
def splitLastTerm : List Char → Option (List Char × List Char)
  | [] => none
  | x :: t =>
    match splitLastTerm t with
    | some (b, a) => some (x :: b, a)
    | none => if isLineTerm x then some ([], x :: t) else none

/-- Strip a literal off the front of a list, or fail. -/
def stripLit : List Char → List Char → Option (List Char)
  | [], l => some l
  | _ :: _, [] => none
  | p :: ps, c :: cs => if c = p then stripLit ps cs else none

/-- Map ASCII upper case characters to lower case (`String.prototype.toLowerCase`
restricted to ASCII, which is all the embedding needs). -/
def toLowerL (l : List Char) : List Char := l.map Char.toLower

/-! ## The reference-comment regular expression

`SourceMapURLRegex = /\/\/(#|@) sourceMappingURL=(.+?)\s*$/m` -/

/-- Matcher for the tail `\s*$` at a given input position, under multiline
semantics: `\s*` greedily consumes whitespace and then backtracks until `$`
matches (end of input, or a position directly before a line terminator).
Returns the remaining input after the whole-match extent on success. -/
def wsEol (cs : List Char) : Option (List Char) :=
  let run := cs.takeWhile isJsWs
  let rest := cs.drop run.length
  match rest with
  | [] => some []
  | _ :: _ =>
    match splitLastTerm run with
    | some (_, fromNl) => some (fromNl ++ rest)
    | none => none

/-- Matcher for `(.+?)\s*$`: the lazy group takes the shortest non-empty run
of non-line-terminator characters after which `\s*$` succeeds.  Returns the
group text and the input remaining after the whole match.  On failure the
scan below retries one position further, as the ECMAScript engine does. -/
def lazyVal : List Char → Option (List Char × List Char)
  | [] => none
  | c :: rest =>
    if isLineTerm c then none
    else
      match wsEol rest with
      | some r => some ([c], r)
      | none =>
        match lazyVal rest with
        | some (v, r) => some (c :: v, r)
        | none => none

/-- The literal part `//(#|@) sourceMappingURL=`: on success returns the
captured marker character and the input after the `=`. -/
def matchMarker : List Char → Option (Char × List Char)
  | a :: b :: s :: rest =>
    if a = '/' ∧ b = '/' ∧ (s = '#' ∨ s = '@') then
      (stripLit (" sourceMappingURL=".data) rest).map (fun r => (s, r))
    else none
  | _ => none

/-- Leftmost-match scan of the whole regex.  `scanSM rev l` tries a full
match at every position of `l` from the left (as ECMAScript does), carrying
the already-skipped characters reversed in `rev`; on success it returns
`(textBeforeMatch, markerChar, groupTwo, textAfterMatch)`. -/
def scanSM : List Char → List Char → Option (List Char × Char × List Char × List Char)
  | _, [] => none
  | rev, c :: rest =>
    match matchMarker (c :: rest) with
    | some (sym, after) =>
      match lazyVal after with
      | some (v, r) => some (rev.reverse, sym, v, r)
      | none => scanSM (c :: rev) rest
    | none => scanSM (c :: rev) rest

/-- `getSourceMapRelativeUrl`: `body.match(SourceMapUtil.SourceMapURLRegex)`,
returning capture group 2 of the first match, `null` if there is none. -/
def getSourceMapRelativeUrl (body : String) : Option String :=
  (scanSM [] body.data).map (fun t => String.mk t.2.2.1)

/-! ## JSON: `JSON.parse` and `JSON.stringify`

Ordered-object JSON values.  Numbers are carried as their source lexeme;
`JSON.parse` turns a lexeme into a double and `JSON.stringify` re-renders
it, so two equal lexemes always denote the same JavaScript value, which is
the level at which the claims compare numbers. -/

inductive JValue where
  | null : JValue
  | bool : Bool → JValue
  | num : String → JValue
  | str : String → JValue
  | arr : List JValue → JValue
  | obj : List (String × JValue) → JValue

/-- Property read `o[k]` on a JavaScript object (first binding wins; the
reader below never produces duplicate keys). -/
def objGet : List (String × JValue) → String → Option JValue
  | [], _ => none
  | (k', v') :: t, k => if k' = k then some v' else objGet t k

/-- Property write `o[k] = v`: overwriting keeps the key's position,
assigning a fresh key appends it. -/
def objSet : List (String × JValue) → String → JValue → List (String × JValue)
  | [], k, v => [(k, v)]
  | (k', v') :: t, k, v => if k' = k then (k', v) :: t else (k', v') :: objSet t k v

/-- Property removal `delete o[k]`. -/
def objDelete : List (String × JValue) → String → List (String × JValue)
  | [], _ => []
  | (k', v') :: t, k => if k' = k then objDelete t k else (k', v') :: objDelete t k

/-- JSON (RFC) whitespace accepted by `JSON.parse` between tokens. -/
def isJsonWs (c : Char) : Bool := (c = ' ') || (c = '\t') || (c = '\n') || (c = '\r')

/-- Hexadecimal digit value. -/
def hexVal (c : Char) : Option Nat :=
  if ('0' ≤ c) && (c ≤ '9') then some (c.toNat - '0'.toNat)
  else if ('a' ≤ c) && (c ≤ 'f') then some (c.toNat - 'a'.toNat + 10)
  else if ('A' ≤ c) && (c ≤ 'F') then some (c.toNat - 'A'.toNat + 10)
  else none

/-- Decode the four hex digits of a `\uXXXX` escape. -/
def hex4 (a b c d : Char) : Option Nat :=
  match hexVal a, hexVal b, hexVal c, hexVal d with
  | some x, some y, some z, some w => some (((x * 16 + y) * 16 + z) * 16 + w)
  | _, _, _, _ => none

/-- Body of a JSON string literal (after the opening quote): returns the
decoded characters and the input after the closing quote.  UTF-16 surrogate
pairs written as two `\u` escapes are combined; a lone surrogate (which a
Lean `Char` cannot carry) decodes to `U+0000`.  Raw control characters are
rejected, as `JSON.parse` does.  The fuel argument only bounds recursion
depth; callers pass more than the input length. -/
def parseStrBody : Nat → List Char → Option (List Char × List Char)
  | 0, _ => none
  | _, [] => none
  | _ + 1, '"' :: rest => some ([], rest)
  | fuel + 1, '\\' :: 'u' :: a :: b :: c :: d :: rest =>
    match hex4 a b c d with
    | none => none
    | some n =>
      if 0xd800 ≤ n ∧ n ≤ 0xdbff then
        match rest with
        | '\\' :: 'u' :: e :: f :: g :: h :: rest2 =>
          match hex4 e f g h with
          | some m =>
            if 0xdc00 ≤ m ∧ m ≤ 0xdfff then
              match parseStrBody fuel rest2 with
              | some (s, r) =>
                some (Char.ofNat (0x10000 + (n - 0xd800) * 0x400 + (m - 0xdc00)) :: s, r)
              | none => none
            else
              match parseStrBody fuel rest with
              | some (s, r) => some (Char.ofNat 0 :: s, r)
              | none => none
          | none =>
            match parseStrBody fuel rest with
            | some (s, r) => some (Char.ofNat 0 :: s, r)
            | none => none
        | _ =>
          match parseStrBody fuel rest with
          | some (s, r) => some (Char.ofNat 0 :: s, r)
          | none => none
      else if 0xdc00 ≤ n ∧ n ≤ 0xdfff then
        match parseStrBody fuel rest with
        | some (s, r) => some (Char.ofNat 0 :: s, r)
        | none => none
      else
        match parseStrBody fuel rest with
        | some (s, r) => some (Char.ofNat n :: s, r)
        | none => none
  | fuel + 1, '\\' :: e :: rest =>
    match
      (if e = '"' then some '"'
       else if e = '\\' then some '\\'
       else if e = '/' then some '/'
       else if e = 'b' then some (Char.ofNat 8)
       else if e = 'f' then some (Char.ofNat 12)
       else if e = 'n' then some '\n'
       else if e = 'r' then some '\r'
       else if e = 't' then some '\t'
       else none) with
    | some c =>
      match parseStrBody fuel rest with
      | some (s, r) => some (c :: s, r)
      | none => none
    | none => none
  | fuel + 1, c :: rest =>
    if c.toNat < 32 then none
    else
      match parseStrBody fuel rest with
      | some (s, r) => some (c :: s, r)
      | none => none

/-- Lexeme of a JSON number at the head of the input. -/
def parseNumLex (cs : List Char) : Option (List Char × List Char) :=
  let (sign, cs1) :=
    match cs with
    | '-' :: t => (['-'], t)
    | _ => (([] : List Char), cs)
  match cs1 with
  | [] => none
  | c :: t =>
    if c = '0' then
      match t with
      | d :: _ =>
        if isDigitCh d then none
        else some (sign ++ ['0'], t)
      | [] => some (sign ++ ['0'], t)
    else if isDigitCh c then
      let ds := t.takeWhile isDigitCh
      some (sign ++ c :: ds, t.drop ds.length)
    else none

/-- Optional fraction part `.[0-9]+`. -/
def parseFrac (cs : List Char) : Option (List Char × List Char) :=
  match cs with
  | '.' :: t =>
    let ds := t.takeWhile isDigitCh
    if ds = [] then none else some ('.' :: ds, t.drop ds.length)
  | _ => some ([], cs)

/-- Optional exponent part `[eE][+-]?[0-9]+`. -/
def parseExp (cs : List Char) : Option (List Char × List Char) :=
  match cs with
  | e :: t =>
    if e = 'e' ∨ e = 'E' then
      let (sg, t1) :=
        match t with
        | '+' :: u => (['+'], u)
        | '-' :: u => (['-'], u)
        | _ => (([] : List Char), t)
      let ds := t1.takeWhile isDigitCh
      if ds = [] then none else some (e :: sg ++ ds, t1.drop ds.length)
    else some ([], cs)
  | [] => some ([], cs)

/-- Full JSON number: integer, fraction and exponent parts as one lexeme. -/
def parseNumber (cs : List Char) : Option (JValue × List Char) :=
  match parseNumLex cs with
  | none => none
  | some (ip, r1) =>
    match parseFrac r1 with
    | none => none
    | some (fp, r2) =>
      match parseExp r2 with
      | none => none
      | some (ep, r3) => some (JValue.num (String.mk (ip ++ fp ++ ep)), r3)

mutual

/-- JSON value reader (fuel-indexed; the fuel only bounds the recursion
depth, `jsonParse` below supplies more than any input can consume). -/
def parseV : Nat → List Char → Option (JValue × List Char)
  | 0, _ => none
  | fuel + 1, cs =>
    match cs.dropWhile isJsonWs with
    | [] => none
    | c :: rest =>
      if c = '\x7b' then
        match rest.dropWhile isJsonWs with
        | '\x7d' :: r => some (JValue.obj [], r)
        | _ =>
          match parseMembers fuel rest [] with
          | some (fs, r) => some (JValue.obj fs, r)
          | none => none
      else if c = '[' then
        match rest.dropWhile isJsonWs with
        | ']' :: r => some (JValue.arr [], r)
        | _ =>
          match parseElems fuel rest with
          | some (vs, r) => some (JValue.arr vs, r)
          | none => none
      else if c = '"' then
        match parseStrBody (rest.length + 1) rest with
        | some (s, r) => some (JValue.str (String.mk s), r)
        | none => none
      else if c = 't' then (stripLit ("rue".data) rest).map (fun r => (JValue.bool true, r))
      else if c = 'f' then (stripLit ("alse".data) rest).map (fun r => (JValue.bool false, r))
      else if c = 'n' then (stripLit ("ull".data) rest).map (fun r => (JValue.null, r))
      else parseNumber (c :: rest)

/-- Members of a JSON object, accumulated with `objSet` (duplicate keys in
the text behave as repeated property assignment, as in JavaScript). -/
def parseMembers : Nat → List Char → List (String × JValue) →
    Option (List (String × JValue) × List Char)
  | 0, _, _ => none
  | fuel + 1, cs, acc =>
    match cs.dropWhile isJsonWs with
    | '"' :: r =>
      match parseStrBody (r.length + 1) r with
      | some (k, r2) =>
        match r2.dropWhile isJsonWs with
        | ':' :: r3 =>
          match parseV fuel r3 with
          | some (v, r4) =>
            let acc2 := objSet acc (String.mk k) v
            match r4.dropWhile isJsonWs with
            | ',' :: r5 => parseMembers fuel r5 acc2
            | '\x7d' :: r5 => some (acc2, r5)
            | _ => none
          | none => none
        | _ => none
      | none => none
    | _ => none

/-- Elements of a JSON array. -/
def parseElems : Nat → List Char → Option (List JValue × List Char)
  | 0, _ => none
  | fuel + 1, cs =>
    match parseV fuel cs with
    | some (v, r) =>
      match r.dropWhile isJsonWs with
      | ',' :: r2 =>
        match parseElems fuel r2 with
        | some (vs, r3) => some (v :: vs, r3)
        | none => none
      | ']' :: r2 => some ([v], r2)
      | _ => none
    | none => none

end

/-- `JSON.parse`: whole-input parse with surrounding whitespace. -/
def jsonParse (s : String) : Option JValue :=
  match parseV (s.data.length + 2) s.data with
  | some (v, rest) => if rest.dropWhile isJsonWs = [] then some v else none
  | none => none

/-! ### JavaScript numbers

`JSON.parse` converts a number lexeme into an IEEE-754 binary64 double and
`JSON.stringify` re-renders that double with `Number::toString(10)`
(ECMA-262: the shortest digit string that reads back as the same double;
non-finite values serialize as `null`).  The embedding keeps the lexeme in
`JValue.num` (numbers are otherwise uninterpreted by the program) and pushes
it through the double semantics at serialization time, which is
observationally the same composition. -/

/-- A binary64 value as produced by `JSON.parse` (`NaN` cannot arise from a
JSON lexeme).  A finite value is `m·2^q`; the rounding below always yields
the canonical representation (`2^52 ≤ m < 2^53`, or `q = -1074` for
subnormals), so structural equality is value equality. -/
inductive F64 where
  | zero (neg : Bool)
  | inf (neg : Bool)
  | fin (neg : Bool) (m : Nat) (q : Int)
deriving DecidableEq

/-- `round(a / b)` half to even (`b > 0`). -/
def roundHalfEven (a b : Nat) : Nat :=
  let qt := a / b
  let r := a % b
  if 2 * r < b then qt
  else if b < 2 * r then qt + 1
  else if qt % 2 = 0 then qt else qt + 1

/-- `b ^ e` by fueled binary exponentiation (multiplication is the
arbitrary-precision primitive; the fuel bounds the recursion depth and
exceeds `log₂ e` everywhere below). -/
def powF : Nat → Nat → Nat → Nat
  | 0, _, _ => 1
  | _ + 1, _, 0 => 1
  | fuel + 1, b, e => (if e % 2 = 1 then b else 1) * powF fuel (b * b) (e / 2)

/-- `10 ^ e`. -/
def pow10 (e : Nat) : Nat := powF 64 10 e

/-- `2 ^ e`. -/
def pow2 (e : Nat) : Nat := powF 64 2 e

/-- `round(n·10^k / 2^q)` half to even, by exact integer arithmetic. -/
def roundScaled (n : Nat) (k q : Int) : Nat :=
  roundHalfEven (n * pow10 k.toNat * pow2 (-q).toNat) (pow10 (-k).toNat * pow2 q.toNat)

/-- Is `n·10^k ≥ 2^t`? -/
def decGeTwo (n : Nat) (k t : Int) : Bool :=
  Nat.ble (pow10 (-k).toNat * pow2 t.toNat) (n * pow10 k.toNat * pow2 (-t).toNat)

/-- Number of binary digits up to a 64-bit word (fueled). -/
def natBitsSmall : Nat → Nat → Nat
  | 0, _ => 0
  | fuel + 1, n => if n = 0 then 0 else natBitsSmall fuel (n / 2) + 1

/-- Number of binary digits (fueled; 64-bit chunks keep the reduction
shallow on very large numbers). -/
def natBitsF : Nat → Nat → Nat
  | 0, _ => 0
  | fuel + 1, n =>
    if n < 18446744073709551616 then natBitsSmall 70 n
    else natBitsF fuel (n / 18446744073709551616) + 64

/-- Number of decimal digits up to a 19-digit word (fueled). -/
def natDigitsSmall : Nat → Nat → Nat
  | 0, _ => 0
  | fuel + 1, n => if n = 0 then 0 else natDigitsSmall fuel (n / 10) + 1

/-- Number of decimal digits (fueled, chunked like `natBitsF`). -/
def natDigitsF : Nat → Nat → Nat
  | 0, _ => 0
  | fuel + 1, n =>
    if n < 10000000000000000000 then natDigitsSmall 25 n
    else natDigitsF fuel (n / 10000000000000000000) + 19

/-- `⌊log₂ (n·10^k)⌋` for `n ≠ 0`: bit-length estimate, then one exact
comparison. -/
def decLog2 (fuel : Nat) (n : Nat) (k : Int) : Int :=
  let g : Int := (natBitsF fuel (n * pow10 k.toNat) : Int) - (natBitsF fuel (pow10 (-k).toNat) : Int)
  if decGeTwo n k g then g else g - 1

/-- Correctly rounded (nearest, ties to even) binary64 value of `±n·10^k`:
overflow to the infinity, gradual underflow to subnormals at `2^-1074`, and
underflow to zero, exactly as `JSON.parse` produces. -/
def mkF64mag (fuel : Nat) (neg : Bool) (n : Nat) (k : Int) : F64 :=
  if n = 0 then F64.zero neg
  else
    let e := decLog2 fuel n k
    if 1024 ≤ e then F64.inf neg
    else if e < -1022 then
      let m := roundScaled n k (-1074)
      if m = 0 then F64.zero neg
      else if 9007199254740992 ≤ m then F64.inf neg
      else F64.fin neg m (-1074)
    else
      let m := roundScaled n k (e - 52)
      if m = 9007199254740992 then
        (if 1023 < e + 1 then F64.inf neg else F64.fin neg 4503599627370496 (e - 51))
      else F64.fin neg m (e - 52)

/-- Value of a list of decimal digit characters. -/
def digitsToNat (l : List Char) : Nat := l.foldl (fun a c => a * 10 + (c.toNat - 48)) 0

/-- Split a JSON number lexeme into sign, integer digits, fraction digits
and exponent value. -/
def numLexParts (l : List Char) : Bool × List Char × List Char × Int :=
  let (neg, l1) : Bool × List Char :=
    match l with
    | '-' :: t => (true, t)
    | _ => (false, l)
  let ip := l1.takeWhile isDigitCh
  let r1 := l1.drop ip.length
  let (fp, r2) : List Char × List Char :=
    match r1 with
    | '.' :: t => (t.takeWhile isDigitCh, t.drop (t.takeWhile isDigitCh).length)
    | _ => ([], r1)
  let ev : Int :=
    match r2 with
    | _ :: t =>
      match t with
      | '-' :: ds => - (digitsToNat (ds.takeWhile isDigitCh) : Int)
      | '+' :: ds => (digitsToNat (ds.takeWhile isDigitCh) : Int)
      | ds => (digitsToNat (ds.takeWhile isDigitCh) : Int)
    | [] => 0
  (neg, ip, fp, ev)

/-- The double denoted by a JSON number lexeme (`JSON.parse`). -/
def lexToF64 (l : List Char) : F64 :=
  let (neg, ip, fp, ev) := numLexParts l
  let fuel := 4 * (ip.length + fp.length + ev.natAbs) + 80
  mkF64mag fuel neg (digitsToNat (ip ++ fp)) (ev - fp.length)

/-- Is `m·2^q ≥ 10^t`? -/
def binGeTen (m : Nat) (q t : Int) : Bool :=
  Nat.ble (pow10 t.toNat * pow2 (-q).toNat) (m * pow2 q.toNat * pow10 (-t).toNat)

/-- The `n` with `10^(n-1) ≤ m·2^q < 10^n` for `m ≠ 0`: digit-count
estimate, then one exact comparison. -/
def decExp (fuel : Nat) (m : Nat) (q : Int) : Int :=
  let g : Int := (natDigitsF fuel (m * pow2 q.toNat) : Int) - (natDigitsF fuel (pow2 (-q).toNat) : Int)
  if binGeTen m q g then g + 1 else g

/-- `round(m·2^q / 10^j)` half to even. -/
def roundScaled10 (m : Nat) (q j : Int) : Nat :=
  roundHalfEven (m * pow2 q.toNat * pow10 (-j).toNat) (pow2 (-q).toNat * pow10 j.toNat)

/-- `|s·10^j - m·2^q|` as the numerator over the common denominator
`2^max(-q,0)·10^max(-j,0)` (used only to compare distances at a fixed `j`). -/
def distNum (m : Nat) (q : Int) (s : Nat) (j : Int) : Nat :=
  let a := s * pow10 j.toNat * pow2 (-q).toNat
  let b := m * pow2 q.toNat * pow10 (-j).toNat
  max a b - min a b

/-- Digit counts `s` with `k` digits whose decimal `s·10^(n-k)` reads back
as exactly the double `m·2^q`: the correctly rounded candidate and its two
neighbours, range- and round-trip-filtered.  Each is paired with its `n`. -/
def candAt (m : Nat) (q : Int) (k : Nat) (n : Int) : List (Nat × Int) :=
  let j : Int := n - k
  let s0 := roundScaled10 m q j
  ((if s0 = 0 then [s0, s0 + 1] else [s0 - 1, s0, s0 + 1]).filter (fun s =>
    decide (pow10 (k - 1) ≤ s) && decide (s < pow10 k) &&
      (mkF64mag 6000 false s j == F64.fin false m q))).map (fun s => (s, n))

/-- Closest candidate to `m·2^q` (ties choose the even digit string). -/
def chooseCand (m : Nat) (q : Int) (k : Nat) : List (Nat × Int) → Option (Nat × Int)
  | [] => none
  | c :: rest =>
    match chooseCand m q k rest with
    | none => some c
    | some b =>
      let dc := distNum m q c.1 (c.2 - k)
      let db := distNum m q b.1 (b.2 - k)
      if dc < db then some c
      else if db < dc then some b
      else if c.1 % 2 = 0 then some c else some b

/-- Smallest digit count whose rounded decimal round-trips (the shortest
round-trip digit string of `Number::toString`), as `(s, n, k)`.  Seventeen
digits always suffice; the fuel only bounds the search. -/
def pickShortest (m : Nat) (q : Int) (n10 : Int) : Nat → Nat → Nat × Int × Nat
  | 0, _ => (roundScaled10 m q (n10 - (17 : Int)), n10, 17)
  | fuel + 1, k =>
    match chooseCand m q k
        (candAt m q k (n10 - 1) ++ candAt m q k n10 ++ candAt m q k (n10 + 1)) with
    | some (s, n) => (s, n, k)
    | none => pickShortest m q n10 fuel (k + 1)

/-- Decimal digit characters of a natural number (fueled; `[]` for zero). -/
def natDigitList : Nat → Nat → List Char
  | 0, _ => []
  | _ + 1, 0 => []
  | fuel + 1, n => natDigitList fuel (n / 10) ++ [Char.ofNat (48 + n % 10)]

/-- `Number::toString(10)` of the positive finite double `m·2^q`: shortest
round-trip digits, then fixed-point or exponential placement per the
ECMA-262 algorithm. -/
def posF64ToStr (m : Nat) (q : Int) : List Char :=
  let n10 := decExp 4000 m q
  let sn := pickShortest m q n10 18 1
  let ds := natDigitList 40 sn.1
  let n := sn.2.1
  let kk : Int := ds.length
  if kk ≤ n ∧ n ≤ 21 then ds ++ List.replicate (n - kk).toNat '0'
  else if 0 < n ∧ n ≤ 21 then ds.take n.toNat ++ '.' :: ds.drop n.toNat
  else if -6 < n ∧ n ≤ 0 then '0' :: '.' :: (List.replicate (-n).toNat '0' ++ ds)
  else
    (match ds with
     | [] => ['0']
     | [d] => [d]
     | d :: rest => d :: '.' :: rest) ++
      'e' :: (if 0 ≤ n - 1 then '+' else '-') :: natDigitList 20 (n - 1).natAbs

/-- `JSON.stringify` of a number lexeme: the parsed double re-rendered;
non-finite doubles (e.g. from `1e999`) serialize as `null`, and the sign of
a negative zero is dropped (`String(-0)` is `"0"`). -/
def renderNum (lex : String) : List Char :=
  match lexToF64 lex.data with
  | F64.inf _ => "null".data
  | F64.zero _ => ['0']
  | F64.fin neg m q => (if neg then ['-'] else []) ++ posF64ToStr m q

/-- One hexadecimal digit character. -/
def hexDigit (n : Nat) : Char :=
  if n < 10 then Char.ofNat ('0'.toNat + n) else Char.ofNat ('a'.toNat + n - 10)

/-- `JSON.stringify` escaping of one character inside a string literal. -/
def escJsonChar (c : Char) : List Char :=
  if c = '"' then ['\\', '"']
  else if c = '\\' then ['\\', '\\']
  else if c = '\n' then ['\\', 'n']
  else if c = '\r' then ['\\', 'r']
  else if c = '\t' then ['\\', 't']
  else if c.toNat = 8 then ['\\', 'b']
  else if c.toNat = 12 then ['\\', 'f']
  else if c.toNat < 32 then
    ['\\', 'u', '0', '0', hexDigit (c.toNat / 16), hexDigit (c.toNat % 16)]
  else [c]

/-- Serialized JSON string literal, quotes included. -/
def strLit (s : String) : List Char :=
  '"' :: (s.data.foldr (fun c acc => escJsonChar c ++ acc) ['"'])

mutual

/-- `JSON.stringify` (no indentation argument: compact output). -/
def writeV : JValue → List Char
  | JValue.null => "null".data
  | JValue.bool true => "true".data
  | JValue.bool false => "false".data
  | JValue.num lex => renderNum lex
  | JValue.str s => strLit s
  | JValue.arr vs => '[' :: writeElems vs ++ [']']
  | JValue.obj fs => '\x7b' :: writeMembers fs ++ ['\x7d']

/-- Array elements, comma separated. -/
def writeElems : List JValue → List Char
  | [] => []
  | [v] => writeV v
  | v :: rest => writeV v ++ ',' :: writeElems rest

/-- Object members, comma separated, in stored (insertion) order. -/
def writeMembers : List (String × JValue) → List Char
  | [] => []
  | [(k, v)] => strLit k ++ ':' :: writeV v
  | (k, v) :: rest => strLit k ++ ':' :: writeV v ++ ',' :: writeMembers rest

end

/-- `JSON.stringify` at the top level. -/
def jsonStringify (v : JValue) : String := String.mk (writeV v)

/-! ## Node `path` (posix flavour)

The host platform of interest is the posix one (`path.sep = "/"`); these are
Node's `path.posix` algorithms.  `process.cwd()` is an explicit argument. -/

/-- One step of Node's `normalizeString`: `""` and `"."` segments vanish,
`".."` pops the last kept segment unless it is itself a kept `".."`, and is
itself kept only when `allowUp` (relative paths) is set.  The accumulator
holds kept segments in reverse. -/
def normStep (allowUp : Bool) (acc : List (List Char)) (seg : List Char) : List (List Char) :=
  if seg = [] ∨ seg = ['.'] then acc
  else if seg = ['.', '.'] then
    match acc with
    | top :: rest => if top = ['.', '.'] then (if allowUp then seg :: acc else acc) else rest
    | [] => if allowUp then seg :: acc else acc
  else seg :: acc

/-- Normalize a segment list (Node `normalizeStringPosix`). -/
def normalizeSegs (allowUp : Bool) (segs : List (List Char)) : List (List Char) :=
  (segs.foldl (normStep allowUp) []).reverse

/-- Node `path.posix.resolve(cwd, p)` for an absolute `cwd` (Node resolves
relative inputs against `process.cwd()`, which is always absolute). -/
def posixResolveL (cwd p : List Char) : List Char :=
  let joined := if p.head? = some '/' then p else cwd ++ '/' :: p
  '/' :: intercalateSlash (normalizeSegs false (splitOnCharL '/' joined))

/-- Segments of a resolved (normalized absolute) path. -/
def absSegs (p : List Char) : List (List Char) :=
  match p with
  | '/' :: body => if body = [] then [] else splitOnCharL '/' body
  | _ => if p = [] then [] else splitOnCharL '/' p

/-- Length of the common prefix of two segment lists. -/
def commonLen : List (List Char) → List (List Char) → Nat
  | a :: as, b :: bs => if a = b then commonLen as bs + 1 else 0
  | _, _ => 0

/-- Node `path.posix.relative(from, to)` with the implicit `process.cwd()`
made explicit: both arguments are resolved against `cwd`, then the path from
the first to the second is built from `".."` segments and the tail of the
target. -/
def posixRelativeL (cwd frm tgt : List Char) : List Char :=
  let f := posixResolveL cwd frm
  let t := posixResolveL cwd tgt
  if f = t then []
  else
    let fs := absSegs f
    let ts := absSegs t
    let c := commonLen fs ts
    intercalateSlash (List.replicate (fs.length - c) ['.', '.'] ++ ts.drop c)

/-- Node `path.posix.normalize`. -/
def posixNormalizeL (p : List Char) : List Char :=
  let isAbs := p.head? = some '/'
  let trailing := p.getLast? = some '/'
  let body := intercalateSlash (normalizeSegs (¬ isAbs) (splitOnCharL '/' p))
  let body2 := if body = [] ∧ ¬ isAbs then ['.'] else body
  let body3 := if body2 ≠ [] ∧ trailing then body2 ++ ['/'] else body2
  if isAbs then '/' :: body3 else body3

/-- Node `path.posix.join`: empty arguments are skipped, the rest are joined
with `"/"` and normalized; an all-empty join yields `"."`. -/
def posixJoinL (parts : List (List Char)) : List Char :=
  let ps := parts.filter (fun s => s ≠ [])
  if ps = [] then ['.'] else posixNormalizeL (intercalateSlash ps)

/-- Node `path.basename` (posix): trailing slashes are ignored and the part
after the last remaining slash is returned. -/
def nodeBasename (p : String) : String :=
  let cs := (p.data.reverse.dropWhile (fun c => c = '/')).reverse
  String.mk ((cs.reverse.takeWhile (fun c => c ≠ '/')).reverse)

/-! ## Node legacy `url` module -/

/-- The fields of a legacy `url.Url` object.  `none` stands for JavaScript
`null`/`undefined`. -/
structure Url where
  protocol : Option String
  slashes : Option Bool
  auth : Option String
  host : Option String
  port : Option String
  hostname : Option String
  hash : Option String
  search : Option String
  query : Option String
  pathname : Option String
  path : Option String
  href : String
deriving DecidableEq

/-- A JavaScript-truthy optional string (present and non-empty). -/
def truthyS : Option String → Bool
  | some s => ! s.data.isEmpty
  | none => false

/-- Value of an optional string, defaulting to `""` (`x || ''`). -/
def optStr (o : Option String) : String := o.getD ""

/-- Protocols the legacy url module treats as slashed, keyed with and
without the trailing colon exactly as in its lookup table. -/
def slashedProtocols : List String :=
  ["http", "https", "ftp", "gopher", "file", "ws", "wss",
   "http:", "https:", "ftp:", "gopher:", "file:", "ws:", "wss:"]

/-- Membership in the slashed-protocol table. -/
def isSlashedProto (p : String) : Bool := slashedProtocols.contains p

/-- Protocols that never have a host in the legacy url module. -/
def hostlessProtocols : List String := ["javascript", "javascript:"]

/-- Membership in the hostless-protocol table. -/
def isHostlessProto (p : String) : Bool := hostlessProtocols.contains p

/-- Character class of the legacy protocol pattern `/^([a-z0-9.+-]+:)/i`. -/
def protoChar (c : Char) : Bool :=
  let n := c.toNat
  (97 ≤ n && n ≤ 122) || (65 ≤ n && n ≤ 90) || (48 ≤ n && n ≤ 57) ||
  (n == 46) || (n == 43) || (n == 45)

/-- The characters `/ ? #` at which the first host-end scan of the legacy
`url.parse` stops. -/
def isHostEndCh (c : Char) : Bool :=
  let n := c.toNat
  (n == 47) || (n == 63) || (n == 35)

/-- The legacy `nonHostChars` set (`% / ? ; #` together with `autoEscape`
and `delims`, that is `' \x7b \x7d | \\ ^ \x60 < > " space CR LF TAB`): the
host section ends at the first of these. -/
def isNonHostChar (c : Char) : Bool :=
  let n := c.toNat
  (n == 37) || (n == 47) || (n == 63) || (n == 59) || (n == 35) || (n == 39) ||
  (n == 123) || (n == 125) || (n == 124) || (n == 92) || (n == 94) || (n == 96) ||
  (n == 60) || (n == 62) || (n == 34) || (n == 32) || (n == 13) || (n == 10) || (n == 9)

/-- `Url.prototype.parseHost`: split a trailing `:[0-9]*` port off the host
section (a bare trailing `":"` is dropped without setting the port). -/
def parseHostPort (l : List Char) : List Char × Option (List Char) :=
  let rev := l.reverse
  let ds := rev.takeWhile isDigitCh
  match rev.drop ds.length with
  | c :: rem =>
    if c = ':' then
      (if ds = [] then (rem.reverse, none) else (rem.reverse, some ds.reverse))
    else (l, none)
  | [] => (l, none)

/-- Protocols the legacy url module refuses to auto-escape (same contents
as the hostless table, kept as its own lookup as in the source). -/
def unsafeProtocols : List String := ["javascript", "javascript:"]

/-- Membership in the unsafe-protocol table. -/
def isUnsafeProto (p : String) : Bool := unsafeProtocols.contains p

/-- The legacy `autoEscape` characters
(`' \x7b \x7d | \\ ^ \x60 < > " space CR LF TAB`): outside of a
`javascript:` url, occurrences in the path section are percent-escaped
during parsing. -/
def autoEscapeChar (c : Char) : Bool :=
  let n := c.toNat
  (n == 39) || (n == 123) || (n == 125) || (n == 124) || (n == 92) || (n == 94) ||
  (n == 96) || (n == 60) || (n == 62) || (n == 34) || (n == 32) || (n == 13) ||
  (n == 10) || (n == 9)

/-- The escape table behind `escAutoChar`. -/
def escAutoCharTable (c : Char) : List Char :=
  let n := c.toNat
  if n == 39 then "%27".data
  else if n == 123 then "%7B".data
  else if n == 125 then "%7D".data
  else if n == 124 then "%7C".data
  else if n == 92 then "%5C".data
  else if n == 94 then "%5E".data
  else if n == 96 then "%60".data
  else if n == 60 then "%3C".data
  else if n == 62 then "%3E".data
  else if n == 34 then "%22".data
  else if n == 32 then "%20".data
  else if n == 13 then "%0D".data
  else if n == 10 then "%0A".data
  else if n == 9 then "%09".data
  else [c]

/-- `encodeURIComponent` (`escape` for the quote, which
`encodeURIComponent` leaves alone) of one auto-escaped character. -/
def escAutoChar (c : Char) : List Char :=
  if autoEscapeChar c then escAutoCharTable c else [c]

/-- The `autoEscape` replacement loop of the legacy `url.parse` over the
path section (the replacements introduce none of the escaped characters, so
the sequential `split`/`join` loop is one pass per character). -/
def escAuto (l : List Char) : List Char := l.foldr (fun c acc => escAutoChar c ++ acc) []

/-- The slashes-denote-host test `/^\/\/[^@\/]+@[^@\/]+/` of the legacy
`url.parse` (an auth-looking `//user@host` prefix). -/
def authPat (l : List Char) : Bool :=
  match l with
  | a :: b :: r =>
    (a = '/') && (b = '/') &&
      (let s := r.takeWhile (fun c => (c ≠ '@') && (c ≠ '/'))
       (! s.isEmpty) &&
         (match r.drop s.length with
          | c2 :: r2 =>
            (c2 = '@') && ! (r2.takeWhile (fun c => (c ≠ '@') && (c ≠ '/'))).isEmpty
          | [] => false))
  | _ => false

/-- The simple-path fast pattern `/^(\/\/?(?!\/)[^\?\s]*)(\?[^\s]*)?$/` of
the legacy `url.parse`: on a match, the pathname group and the optional
search group. -/
def simplePath (l : List Char) : Option (List Char × Option (List Char)) :=
  match l with
  | c0 :: rest =>
    if c0 = '/' then
      if rest.take 2 = ['/', '/'] then none
      else
        let run := rest.takeWhile (fun c => (c ≠ '?') && ! isJsWs c)
        match rest.drop run.length with
        | [] => some (c0 :: run, none)
        | c :: q =>
          if c = '?' ∧ q.all (fun d => ! isJsWs d) then some (c0 :: run, some (c :: q))
          else none
    else none
  | [] => none

/-- The backslash pre-step of the legacy `url.parse`: backslashes before the
first `'?'` or `'#'` (the splitter is `'?'` exactly when a `'?'` occurs
before a present `'#'`) are replaced by forward slashes. -/
def backslashFixL (u : List Char) : List Char :=
  let splitter :=
    if (u.contains '#') && ((u.takeWhile (fun c => c ≠ '#')).contains '?') then '?' else '#'
  let pre := u.takeWhile (fun c => c ≠ splitter)
  pre.map (fun c => if c = '\\' then '/' else c) ++ u.drop pre.length

/-- Upper-case hexadecimal digit (percent-escapes are upper case). -/
def hexDigitUp (n : Nat) : Char :=
  if n < 10 then Char.ofNat (48 + n) else Char.ofNat (65 + n - 10)

/-- A `%XX` escape for one byte. -/
def pctHexUp (n : Nat) : List Char := ['%', hexDigitUp (n / 16), hexDigitUp (n % 16)]

/-- The characters `encodeURIComponent` leaves unescaped
(`A-Z a-z 0-9 - _ . ! ~ * quote ( )`). -/
def uriUnreserved (c : Char) : Bool :=
  let n := c.toNat
  (65 ≤ n && n ≤ 90) || (97 ≤ n && n ≤ 122) || (48 ≤ n && n ≤ 57) ||
  (n == 45) || (n == 95) || (n == 46) || (n == 33) || (n == 126) || (n == 42) ||
  (n == 39) || (n == 40) || (n == 41)

/-- UTF-8 bytes of one scalar value. -/
def utf8Bytes (c : Char) : List Nat :=
  let n := c.toNat
  if n < 0x80 then [n]
  else if n < 0x800 then [0xc0 + n / 64, 0x80 + n % 64]
  else if n < 0x10000 then [0xe0 + n / 4096, 0x80 + n / 64 % 64, 0x80 + n % 64]
  else [0xf0 + n / 262144, 0x80 + n / 4096 % 64, 0x80 + n / 64 % 64, 0x80 + n % 64]

/-- `encodeURIComponent` (total on Lean characters, which are always valid
scalar values). -/
def encodeURIComponentL (l : List Char) : List Char :=
  l.foldr (fun c acc =>
    (if uriUnreserved c then [c]
     else (utf8Bytes c).foldr (fun b a2 => pctHexUp b ++ a2) []) ++ acc) []

/-- `auth.replace(/%3A/i, ':')` of the legacy `url.format`: first
occurrence, case-insensitive hex. -/
def replaceFirstPct3A : List Char → List Char
  | [] => []
  | c :: t =>
    if c = '%' ∧ (t.take 2 = ['3', 'A'] ∨ t.take 2 = ['3', 'a']) then ':' :: t.drop 2
    else c :: replaceFirstPct3A t

/-- One `%XX` continuation byte (`0x80`–`0xBF`) of a multi-byte UTF-8
sequence inside `decodeURIComponent`. -/
def contByte : List Char → Option (Nat × List Char)
  | c :: a :: b :: r =>
    if c = '%' then
      match hexVal a, hexVal b with
      | some x, some y =>
        let v := x * 16 + y
        if 0x80 ≤ v ∧ v ≤ 0xbf then some (v, r) else none
      | _, _ => none
    else none
  | _ => none

/-- `decodeURIComponent`: percent-escapes decode as UTF-8; a `'%'` without
two hex digits, a malformed, overlong or out-of-range byte sequence, or a
surrogate code point throws `URIError`, modelled by `none`.  The fuel only
bounds recursion depth (callers pass more than the input length). -/
def decodeURIComponentL : Nat → List Char → Option (List Char)
  | 0, _ => none
  | _ + 1, [] => some []
  | fuel + 1, c :: rest =>
    if c = '%' then
      match rest with
      | a :: b :: r =>
        match hexVal a, hexVal b with
        | some x, some y =>
          let v := x * 16 + y
          if v < 0x80 then (decodeURIComponentL fuel r).map (fun d => Char.ofNat v :: d)
          else if v < 0xc0 then none
          else if v < 0xe0 then
            match contByte r with
            | some (v2, r2) =>
              let cp := (v - 0xc0) * 64 + (v2 - 0x80)
              if cp < 0x80 then none
              else (decodeURIComponentL fuel r2).map (fun d => Char.ofNat cp :: d)
            | none => none
          else if v < 0xf0 then
            match contByte r with
            | some (v2, r2) =>
              match contByte r2 with
              | some (v3, r3) =>
                let cp := ((v - 0xe0) * 64 + (v2 - 0x80)) * 64 + (v3 - 0x80)
                if cp < 0x800 ∨ (0xd800 ≤ cp ∧ cp ≤ 0xdfff) then none
                else (decodeURIComponentL fuel r3).map (fun d => Char.ofNat cp :: d)
              | none => none
            | none => none
          else if v < 0xf8 then
            match contByte r with
            | some (v2, r2) =>
              match contByte r2 with
              | some (v3, r3) =>
                match contByte r3 with
                | some (v4, r4) =>
                  let cp := (((v - 0xf0) * 64 + (v2 - 0x80)) * 64 + (v3 - 0x80)) * 64
                    + (v4 - 0x80)
                  if cp < 0x10000 ∨ 0x10ffff < cp then none
                  else (decodeURIComponentL fuel r4).map (fun d => Char.ofNat cp :: d)
                | none => none
              | none => none
            | none => none
          else none
        | _, _ => none
      | _ => none
    else (decodeURIComponentL fuel rest).map (fun d => c :: d)

/-- Hostname, host and port of the host section (`Url.prototype.parseHost`
plus the 255-character hostname cutoff and ASCII lower-casing; hostname
part validation, IDN/punycode conversion and IPv6 bracket hosts are not
modelled — the claims' `hostOK` hypotheses keep inputs inside the modelled
domain). -/
def hostTail (auth : Option String) (restA : List Char) :
    Option String × Option String × Option String × Option String × List Char :=
  let hostSec2 := restA.takeWhile (fun c => ! isNonHostChar c)
  let rest3 := restA.drop hostSec2.length
  let (hn0, portOpt) := parseHostPort hostSec2
  let hn := if 255 < hn0.length then [] else toLowerL hn0
  let hostStr := hn ++ (match portOpt with | some p => ':' :: p | none => [])
  (auth, some (String.mk hostStr), some (String.mk hn), portOpt.map String.mk, rest3)

/-- Host-section parsing of the legacy `url.parse`: split the auth at the
last `'@'` before the first of `/ ? #` and percent-decode it (a decode
failure is the `URIError` the program lets escape, modelled by `none`),
stop the host at the first `nonHostChars` character, split the port, and
lower-case the hostname. -/
def parseHostSectionE (cs : List Char) :
    Option (Option String × Option String × Option String × Option String × List Char) :=
  let hostSec := cs.takeWhile (fun c => ! isHostEndCh c)
  match splitLastChar '@' hostSec with
  | some (a, after) =>
    match decodeURIComponentL (a.length + 1) a with
    | none => none
    | some dec => some (hostTail (some (String.mk dec)) (after ++ cs.drop hostSec.length))
  | none => some (hostTail none cs)

/-- `search.replace('#', '%23')` of the legacy `url.format`: a string
pattern replaces only the first occurrence. -/
def replaceFirstHashL : List Char → List Char
  | [] => []
  | c :: t => if c = '#' then '%' :: '2' :: '3' :: t else c :: replaceFirstHashL t

/-- Legacy `url.format` on a `Url` object (the `query`-object branch never
applies because `query` is a string here). -/
def urlFormatL (u : Url) : List Char :=
  let auth := match u.auth with
    | some a =>
      if a.isEmpty then ([] : List Char)
      else replaceFirstPct3A (encodeURIComponentL a.data) ++ ['@']
    | none => []
  let protocol0 := (optStr u.protocol).data
  let pathname0 := (optStr u.pathname).data
  let hash0 := (optStr u.hash).data
  let hostF : Option (List Char) :=
    if truthyS u.host then some (auth ++ (optStr u.host).data)
    else if truthyS u.hostname then
      some (auth ++
        (if (optStr u.hostname).data.contains ':' then
          '[' :: (optStr u.hostname).data ++ [']']
         else (optStr u.hostname).data) ++
        (if truthyS u.port then ':' :: (optStr u.port).data else []))
    else none
  let search0 := (optStr u.search).data
  let protocol1 :=
    if protocol0 ≠ [] ∧ protocol0.getLast? ≠ some ':' then protocol0 ++ [':'] else protocol0
  let cond := (u.slashes = some true) ∨
    ((protocol1 = [] ∨ isSlashedProto (String.mk protocol1)) ∧ hostF ≠ none)
  let host1 := if cond then '/' :: '/' :: (hostF.getD []) else hostF.getD []
  let pathname1 :=
    if cond ∧ pathname0 ≠ [] ∧ pathname0.head? ≠ some '/' then '/' :: pathname0 else pathname0
  let hash1 := if hash0 ≠ [] ∧ hash0.head? ≠ some '#' then '#' :: hash0 else hash0
  let search1 := if search0 ≠ [] ∧ search0.head? ≠ some '?' then '?' :: search0 else search0
  let pathname2 := pathname1.foldr
    (fun c acc =>
      (if c = '?' then ['%', '3', 'F'] else if c = '#' then ['%', '2', '3'] else [c]) ++ acc) []
  let search2 := replaceFirstHashL search1
  protocol1 ++ host1 ++ pathname2 ++ search2 ++ hash1

/-- Legacy `url.format` as a string. -/
def urlFormat (u : Url) : String := String.mk (urlFormatL u)

/-- The tail of the legacy `url.parse` after the host section: auto-escape
the path section (outside an unsafe protocol), split hash, search/query and
pathname, apply the slashed-protocol `"/"` pathname default, assemble
`path = pathname + search` and re-render `href` with `format`.  The tuple
`hp` is `(auth, host, hostname, port, remainingInput)`. -/
def urlTail (proto : Option String) (slashes : Option Bool)
    (hp : Option String × Option String × Option String × Option String × List Char) : Url :=
  let unsafeP := match proto with | some p => isUnsafeProto p | none => false
  let rest4 := if unsafeP then hp.2.2.2.2 else escAuto hp.2.2.2.2
  let hashPre := rest4.takeWhile (fun c => c ≠ '#')
  let hashSuf := rest4.drop hashPre.length
  let hashV : Option String := if hashSuf = [] then none else some (String.mk hashSuf)
  let srchPre := hashPre.takeWhile (fun c => c ≠ '?')
  let srchSuf := hashPre.drop srchPre.length
  let srchV : Option String := if srchSuf = [] then none else some (String.mk srchSuf)
  let queryV : Option String := if srchSuf = [] then none else some (String.mk (srchSuf.drop 1))
  let pathn0 : Option String := if srchPre = [] then none else some (String.mk srchPre)
  let slashedP := match proto with | some p => isSlashedProto p | none => false
  let pathn :=
    if slashedP && truthyS hp.2.2.1 && pathn0.isNone then some "/" else pathn0
  let pathV : Option String :=
    if pathn.isSome ∨ srchV.isSome then some (optStr pathn ++ optStr srchV) else none
  let base : Url :=
    { protocol := proto, slashes := slashes, auth := hp.1, host := hp.2.1,
      port := hp.2.2.2.1, hostname := hp.2.2.1, hash := hashV, search := srchV,
      query := queryV, pathname := pathn, path := pathV, href := "" }
  { base with href := urlFormat base }

/-- Legacy `url.parse` after the pre-steps (backslash fix, trim,
simple-path test): protocol, the slashes-denote-host rule, host section
with auth decoding, then `urlTail`.  `none` is a `URIError` escaping from
`decodeURIComponent`. -/
def urlParseCore (cs : List Char) : Option Url :=
  let rest := cs
  let pSpan := rest.takeWhile protoChar
  let (proto, rest1) : Option String × List Char :=
    if pSpan = [] then (none, rest)
    else
      match rest.drop pSpan.length with
      | c :: r2 => if c = ':' then (some (String.mk (toLowerL pSpan ++ [':'])), r2) else (none, rest)
      | [] => (none, rest)
  let hostless := match proto with | some p => isHostlessProto p | none => false
  let canSlash := proto.isSome || authPat rest1
  let slashesVar := canSlash && (rest1.take 2 == ['/', '/'])
  let consume := slashesVar && ! (proto.isSome && hostless)
  let rest2 := if consume then rest1.drop 2 else rest1
  let slashes : Option Bool := if consume then some true else none
  let slashedP := match proto with | some p => isSlashedProto p | none => false
  let hostEnabled := (! hostless) && (slashesVar || (proto.isSome && ! slashedP))
  match (if hostEnabled then parseHostSectionE rest2
         else some ((none : Option String), (none : Option String),
           (none : Option String), (none : Option String), rest2)) with
  | none => none
  | some hp => some (urlTail proto slashes hp)

/-- Legacy `url.parse` (`parseQueryString` and `slashesDenoteHost` left at
`false`, as the source calls it): the backslash pre-step, `trim`, the
simple-path fast path when the input has no `'#'`, otherwise the general
parse.  `none` models a thrown `URIError`. -/
def urlParse (s : String) : Option Url :=
  let u1 := backslashFixL s.data
  let rest := jsTrimL u1
  if u1.contains '#' then urlParseCore rest
  else
    match simplePath rest with
    | some g =>
      some { protocol := none, slashes := none, auth := none, host := none, port := none,
             hostname := none, hash := none,
             search := g.2.map String.mk,
             query := g.2.map (fun q => String.mk (q.drop 1)),
             pathname := some (String.mk g.1),
             path := some (String.mk rest), href := String.mk rest }
    | none => urlParseCore rest

/-! ## The `SourceMapUtil` operations -/

/-- `makeUnixStylePath`: split on `path.sep` (the posix host separator
`'/'`) and re-join with `path.posix.join`. -/
def makeUnixStylePath (p : String) : String :=
  String.mk (posixJoinL (splitOnCharL '/' p.data))

/-- `updateSourceMapPath`: make the path relative to `sourcesRootPath`,
then unix style.  `cwd` is the process working directory `path.relative`
resolves against. -/
def updateSourceMapPath (cwd sourcePath sourcesRootPath : String) : String :=
  makeUnixStylePath (String.mk (posixRelativeL cwd.data sourcesRootPath.data sourcePath.data))

/-- All elements string, or the first non-string (`path.relative` throws a
`TypeError` on a non-string, which the caller's `catch` turns into the
original body). -/
def allStrings : List JValue → Option (List String)
  | [] => some []
  | JValue.str s :: t => (allStrings t).map (fun r => s :: r)
  | _ => none

/-- The `try` body of `updateSourceMapFile` after `JSON.parse` succeeded:
anything that would throw in JavaScript (no object, no `sources` array,
non-string entry) is `none`.  Otherwise `sources` is mapped through
`updateSourceMapPath`, `sourcesContent` deleted, `sourceRoot` set to `""`
and `file` set to the script path, in the source's order of property
writes. -/
def transformDoc (cwd scriptPath sourcesRootPath : String) : JValue → Option JValue
  | JValue.obj fields =>
    match objGet fields "sources" with
    | some (JValue.arr elems) =>
      match allStrings elems with
      | some paths =>
        let newSources := paths.map (fun p => updateSourceMapPath cwd p sourcesRootPath)
        let f1 := objSet fields "sources" (JValue.arr (newSources.map JValue.str))
        let f2 := objDelete f1 "sourcesContent"
        let f3 := objSet f2 "sourceRoot" (JValue.str "")
        let f4 := objSet f3 "file" (JValue.str scriptPath)
        some (JValue.obj f4)
      | none => none
    | _ => none
  | _ => none

/-- `updateSourceMapFile(sourceMapBody, scriptPath, sourcesRootPath)`: parse,
transform, re-serialize; any exception inside the `try` returns the body
unchanged.  `cwd` is the explicit process working directory. -/
def updateSourceMapFile (cwd sourceMapBody scriptPath sourcesRootPath : String) : String :=
  match jsonParse sourceMapBody with
  | some j =>
    match transformDoc cwd scriptPath sourcesRootPath j with
    | some j2 => jsonStringify j2
    | none => sourceMapBody
  | none => sourceMapBody

/-- `getSourceMapURL(scriptUrl, scriptBody)`: locate the reference, parse
it, overwrite protocol and host from the script's url, format and re-parse.
`Except.ok none` is the `null` result; `Except.error ()` models a
`URIError` thrown by `url.parse` escaping this public method. -/
def getSourceMapURL (scriptUrl : Url) (scriptBody : String) : Except Unit (Option Url) :=
  match getSourceMapRelativeUrl scriptBody with
  | none => Except.ok none
  | some ref =>
    match urlParse ref with
    | none => Except.error ()
    | some m =>
      let m2 := { m with protocol := scriptUrl.protocol, host := scriptUrl.host }
      match urlParse (urlFormat m2) with
      | none => Except.error ()
      | some res => Except.ok (some res)

/-- Replacement-template expansion of `String.prototype.replace` for a
string replacement: `$$`, `$&`, the backtick and quote forms, `$1`, `$2`
(the regex has two groups); anything else after `$` stays literal. -/
def applyTemplate (before matched after g1 g2 : List Char) : List Char → List Char
  | [] => []
  | [c] => [c]
  | c :: d :: u =>
    if c = '$' then
      if d = '$' then '$' :: applyTemplate before matched after g1 g2 u
      else if d = '&' then matched ++ applyTemplate before matched after g1 g2 u
      else if d.toNat = 96 then before ++ applyTemplate before matched after g1 g2 u
      else if d.toNat = 39 then after ++ applyTemplate before matched after g1 g2 u
      else if d = '1' then g1 ++ applyTemplate before matched after g1 g2 u
      else if d = '2' then g2 ++ applyTemplate before matched after g1 g2 u
      else '$' :: applyTemplate before matched after g1 g2 (d :: u)
    else c :: applyTemplate before matched after g1 g2 (d :: u)

/-- `updateScriptPaths(scriptBody, sourceMappingUrl)`: replace the first
regex match by `"//# sourceMappingURL=" + path.basename(pathname)`.  When
`pathname` is `null`, `path.basename` throws a `TypeError`; the `none`
result models that exception escaping this public method. -/
def updateScriptPathsE (scriptBody : String) (sourceMappingUrl : Url) : Option String :=
  match sourceMappingUrl.pathname with
  | none => none
  | some pth =>
    let repl := ("//# sourceMappingURL=".data) ++ (nodeBasename pth).data
    some (match scanSM [] scriptBody.data with
      | none => scriptBody
      | some (pre, sym, v, r) =>
        let consumed := (scriptBody.data.drop pre.length).take
          (scriptBody.data.length - pre.length - r.length)
        String.mk (pre ++ applyTemplate pre consumed r [sym]
          (v) repl ++ r))

/-! ## Statement-level helper definitions -/

/-- The `sources` entries of a serialized source-map document, when the text
parses as an object whose `sources` is an array of strings. -/
def sourcesOfText (s : String) : Option (List String) :=
  match jsonParse s with
  | some (JValue.obj f) =>
    match objGet f "sources" with
    | some (JValue.arr l) => allStrings l
    | _ => none
  | _ => none

/-- Lines of a string (split at every `'\n'`). -/
def splitLines (s : String) : List String := (splitOnCharL '\n' s.data).map String.mk

/-- Two consecutive `'/'` characters occur somewhere in the list. -/
def hasDS : List Char → Bool
  | [] => false
  | [_] => false
  | a :: b :: t => ((a == '/') && (b == '/')) || hasDS (b :: t)

/-- Script body `//#`, then `n` spaces, then `sourceMappingURL=foo.map`. -/
def oneSpaceFamily (n : Nat) : String :=
  String.mk ('/' :: '/' :: '#' :: (List.replicate n ' ' ++ ("sourceMappingURL=foo.map".data)))

/-- Lower-case protocol-class character (`a-z 0-9 . + -`). -/
def protoLowerChar (c : Char) : Bool :=
  let n := c.toNat
  (97 ≤ n && n ≤ 122) || (48 ≤ n && n ≤ 57) || (n == 46) || (n == 43) || (n == 45)

/-- Shape of a protocol value like `"http:"`: a non-empty run of lower-case
protocol-class characters followed by a single final `':'`. -/
def protocolOK (p : String) : Bool :=
  (p.data.dropLast ≠ []) && p.data.dropLast.all protoLowerChar && (p.data.getLast? == some ':')

/-- Character allowed in a host name here (`a-z 0-9 . -`). -/
def hostChar (c : Char) : Bool :=
  let n := c.toNat
  (97 ≤ n && n ≤ 122) || (48 ≤ n && n ≤ 57) || (n == 46) || (n == 45)

/-- Shape of a well-formed lower-case host value: `name` or `name:digits`,
with the name within the legacy 255-character hostname cutoff and its
dot-separated labels within the 63-character validation bound (so the
unmodelled hostname-part validation and IDN conversion are the identity on
it). -/
def hostOK (h : String) : Bool :=
  let d := h.data
  let name := d.takeWhile (fun c => c ≠ ':')
  let rest := d.drop name.length
  (name ≠ []) && name.all hostChar && (name.length ≤ 255) &&
  ((splitOnCharL '.' name).all (fun lab => lab.length ≤ 63)) &&
  (match rest with
   | [] => true
   | _ :: ds => (ds ≠ []) && ds.all isDigitCh)

/-! ## General helper lemmas -/

theorem string_data_mk (l : List Char) : (String.mk l).data = l := rfl

theorem takeWhile_append_all {p : Char → Bool} (a b : List Char) (h : ∀ c ∈ a, p c = true) :
    (a ++ b).takeWhile p = a ++ b.takeWhile p := by
  induction a with
  | nil => simp
  | cons x t ih =>
    have hx : p x = true := h x (by simp)
    simp [List.takeWhile_cons, hx]
    exact ih (fun c hc => h c (by simp [hc]))

theorem takeWhile_head_fail {p : Char → Bool} (b : List Char)
    (hb : ∀ c, b.head? = some c → p c = false) : b.takeWhile p = [] := by
  cases b with
  | nil => rfl
  | cons x t => simp [List.takeWhile_cons, hb x rfl]

theorem takeWhile_append_stop {p : Char → Bool} (a b : List Char)
    (ha : ∀ c ∈ a, p c = true) (hb : ∀ c, b.head? = some c → p c = false) :
    (a ++ b).takeWhile p = a := by
  rw [takeWhile_append_all a b ha, takeWhile_head_fail b hb, List.append_nil]

theorem dropWhile_append_all {p : Char → Bool} (a b : List Char) (h : ∀ c ∈ a, p c = true) :
    (a ++ b).dropWhile p = b.dropWhile p := by
  induction a with
  | nil => simp
  | cons x t ih =>
    have hx : p x = true := h x (by simp)
    simp [List.dropWhile_cons, hx]
    exact ih (fun c hc => h c (by simp [hc]))

theorem dropWhile_append_ex {p : Char → Bool} (a b : List Char)
    (h : ∃ c ∈ a, p c = false) : (a ++ b).dropWhile p = a.dropWhile p ++ b := by
  induction a with
  | nil =>
    obtain ⟨c, hc, _⟩ := h
    exact absurd hc (by simp)
  | cons x t ih =>
    by_cases hx : p x = true
    · have ht : ∃ c ∈ t, p c = false := by
        obtain ⟨c, hc, hcp⟩ := h
        rcases List.mem_cons.mp hc with rfl | hmem
        · exact absurd hx (by simp [hcp])
        · exact ⟨c, hmem, hcp⟩
      simp [List.dropWhile_cons, hx]
      exact ih ht
    · simp at hx
      simp [List.dropWhile_cons, hx]

theorem head_dropWhile {p : Char → Bool} (l : List Char) (c : Char)
    (h : (l.dropWhile p).head? = some c) : p c = false := by
  induction l with
  | nil => simp [List.dropWhile] at h
  | cons x t ih =>
    by_cases hx : p x = true
    · rw [List.dropWhile_cons, if_pos hx] at h
      exact ih h
    · rw [List.dropWhile_cons, if_neg hx] at h
      simp at h hx
      subst h
      exact hx

theorem mem_takeWhile {p : Char → Bool} {l : List Char} {x : Char}
    (h : x ∈ l.takeWhile p) : p x = true := by
  induction l with
  | nil => simp [List.takeWhile] at h
  | cons c t ih =>
    by_cases hc : p c = true
    · rw [List.takeWhile_cons, if_pos hc] at h
      rcases List.mem_cons.mp h with rfl | hm
      · exact hc
      · exact ih hm
    · rw [List.takeWhile_cons, if_neg hc] at h
      simp at h

theorem drop_takeWhile_length (p : Char → Bool) (l : List Char) :
    l.drop (l.takeWhile p).length = l.dropWhile p := by
  induction l with
  | nil => rfl
  | cons c t ih =>
    by_cases hc : p c = true
    · simp [List.takeWhile_cons, List.dropWhile_cons, hc, ih]
    · simp [List.takeWhile_cons, List.dropWhile_cons, hc]

theorem objGet_objSet_self (l : List (String × JValue)) (k : String) (v : JValue) :
    objGet (objSet l k v) k = some v := by
  induction l with
  | nil => simp [objSet, objGet]
  | cons h t ih =>
    obtain ⟨k', v'⟩ := h
    by_cases hk : k' = k
    · simp [objSet, objGet, hk]
    · simp [objSet, objGet, hk, ih]

theorem objGet_objSet_ne (l : List (String × JValue)) (k k2 : String) (v : JValue)
    (h : k2 ≠ k) : objGet (objSet l k v) k2 = objGet l k2 := by
  have h' : k ≠ k2 := Ne.symm h
  induction l with
  | nil => simp [objSet, objGet, h']
  | cons hd t ih =>
    obtain ⟨k', v'⟩ := hd
    by_cases hk : k' = k
    · subst hk
      simp [objSet, objGet, h']
    · simp [objSet, objGet, hk, ih]

theorem objGet_objDelete_self (l : List (String × JValue)) (k : String) :
    objGet (objDelete l k) k = none := by
  induction l with
  | nil => simp [objDelete, objGet]
  | cons hd t ih =>
    obtain ⟨k', v'⟩ := hd
    by_cases hk : k' = k
    · simp [objDelete, hk, ih]
    · simp [objDelete, objGet, hk, ih]

theorem objGet_objDelete_ne (l : List (String × JValue)) (k k2 : String)
    (h : k2 ≠ k) : objGet (objDelete l k) k2 = objGet l k2 := by
  have h' : k ≠ k2 := Ne.symm h
  induction l with
  | nil => simp [objDelete]
  | cons hd t ih =>
    obtain ⟨k', v'⟩ := hd
    by_cases hk : k' = k
    · subst hk
      simp [objDelete, objGet, h', ih]
    · simp [objDelete, objGet, hk, ih]

/-! ## The normalizer: shared decomposition -/

theorem updateSourceMapFile_parsed (cwd body sp root : String)
    (fields : List (String × JValue)) (elems : List JValue) (paths : List String)
    (hp : jsonParse body = some (JValue.obj fields))
    (hs : objGet fields "sources" = some (JValue.arr elems))
    (ha : allStrings elems = some paths) :
    updateSourceMapFile cwd body sp root =
      jsonStringify (JValue.obj (objSet (objSet (objDelete (objSet fields "sources"
          (JValue.arr ((paths.map (fun p => updateSourceMapPath cwd p root)).map JValue.str)))
        "sourcesContent") "sourceRoot" (JValue.str "")) "file" (JValue.str sp))) := by
  simp [updateSourceMapFile, hp, transformDoc, hs, ha]

theorem posixResolveL_abs (cwd p : List Char) (h : p.head? = some '/') :
    posixResolveL cwd p = '/' :: intercalateSlash (normalizeSegs false (splitOnCharL '/' p)) := by
  unfold posixResolveL
  rw [if_pos h]

theorem updateSourceMapPath_example (cwd : String) :
    updateSourceMapPath cwd ("/proj/src/app/index.js") ("/proj/src") = "app/index.js" := by
  unfold updateSourceMapPath posixRelativeL
  rw [posixResolveL_abs cwd.data (("/proj/src").data) rfl,
      posixResolveL_abs cwd.data (("/proj/src/app/index.js").data) rfl]
  rfl

/-- C1: for every input text that parses as a source-map document (an object
whose `sources` is an array of strings), `updateSourceMapFile` returns the
serialization of a document in which every `sources` entry has been replaced
by `updateSourceMapPath` relative to the supplied root (in particular root
`/proj/src` and entry `/proj/src/app/index.js` yield `app/index.js`, slash
joined), `sourcesContent` is absent, `sourceRoot` is the empty string, and
`file` equals the supplied script path.  The process working directory
(which Node's `path.relative` consults for relative entries) is the explicit
`cwd` and is arbitrary here. -/
theorem c1_normalized_output (cwd body sp root : String)
    (fields : List (String × JValue)) (elems : List JValue) (paths : List String)
    (hp : jsonParse body = some (JValue.obj fields))
    (hs : objGet fields "sources" = some (JValue.arr elems))
    (ha : allStrings elems = some paths) :
    ∃ fields2, updateSourceMapFile cwd body sp root = jsonStringify (JValue.obj fields2) ∧
      objGet fields2 "sources" =
        some (JValue.arr ((paths.map (fun p => updateSourceMapPath cwd p root)).map JValue.str)) ∧
      objGet fields2 "sourcesContent" = none ∧
      objGet fields2 "sourceRoot" = some (JValue.str "") ∧
      objGet fields2 "file" = some (JValue.str sp) ∧
      updateSourceMapPath cwd ("/proj/src/app/index.js") ("/proj/src") = "app/index.js" := by
  refine ⟨_, updateSourceMapFile_parsed cwd body sp root fields elems paths hp hs ha,
    ?_, ?_, ?_, ?_, updateSourceMapPath_example cwd⟩
  · rw [objGet_objSet_ne _ _ _ _ (by decide), objGet_objSet_ne _ _ _ _ (by decide),
      objGet_objDelete_ne _ _ _ (by decide), objGet_objSet_self]
  · rw [objGet_objSet_ne _ _ _ _ (by decide), objGet_objSet_ne _ _ _ _ (by decide),
      objGet_objDelete_self]
  · rw [objGet_objSet_ne _ _ _ _ (by decide), objGet_objSet_self]
  · rw [objGet_objSet_self]

/-- Witness for C1 at a concrete parsed document. -/
theorem c1_normalized_output_witness :
    ∃ fields2,
      updateSourceMapFile ("/") ("\x7b\"version\":3,\"sources\":[\"/proj/src/app/index.js\"],\"names\":[],\"mappings\":\"AAAA\",\"sourcesContent\":[\"text\"],\"sourceRoot\":\"/proj\"\x7d")
          ("/store/index.bundle") ("/proj/src") = jsonStringify (JValue.obj fields2) ∧
      objGet fields2 "sources" =
        some (JValue.arr ((["/proj/src/app/index.js"].map
          (fun p => updateSourceMapPath ("/") p ("/proj/src"))).map JValue.str)) ∧
      objGet fields2 "sourcesContent" = none ∧
      objGet fields2 "sourceRoot" = some (JValue.str "") ∧
      objGet fields2 "file" = some (JValue.str ("/store/index.bundle")) ∧
      updateSourceMapPath ("/") ("/proj/src/app/index.js") ("/proj/src") = "app/index.js" :=
  c1_normalized_output ("/") _ ("/store/index.bundle") ("/proj/src")
    [("version", JValue.num "3"),
     ("sources", JValue.arr [JValue.str "/proj/src/app/index.js"]),
     ("names", JValue.arr []),
     ("mappings", JValue.str "AAAA"),
     ("sourcesContent", JValue.arr [JValue.str "text"]),
     ("sourceRoot", JValue.str "/proj")]
    [JValue.str "/proj/src/app/index.js"] ["/proj/src/app/index.js"] rfl rfl rfl

/-- C8 counterexample: values of unrecognized fields are not always
unchanged in the output text.  `JSON.parse("1e999")` is `Infinity`, and
`JSON.stringify` renders a non-finite double as `null`, so normalizing a
document with the untouched extra field `"x":1e999` changes that field's
value to `null`. -/
theorem c8_counterexample :
    updateSourceMapFile ("/") ("\x7b\"sources\":[],\"x\":1e999\x7d") ("s.js") ("/r")
        = "\x7b\"sources\":[],\"x\":null,\"sourceRoot\":\"\",\"file\":\"s.js\"\x7d" ∧
    jsonParse ("\x7b\"sources\":[],\"x\":1e999\x7d")
        = some (JValue.obj [("sources", JValue.arr []), ("x", JValue.num "1e999")]) ∧
    String.mk (renderNum "1e999") = "null" := ⟨rfl, rfl, rfl⟩

/-- C8 amended: for every successfully normalized document, every field
other than the governed four (`sources`, `sourcesContent`, `sourceRoot`,
`file`) — in particular `mappings`, `names`, `version` and any
unrecognized fields — keeps its position and its parsed value: the output
is the `JSON.stringify` re-serialization of the parsed document, which
re-renders each number from its double value (so a literal such as `1e999`
that parses to a non-finite double appears as `null`, and a finite literal
appears in its canonical shortest rendering rather than byte-for-byte). -/
theorem c8_frame_fields (cwd body sp root : String)
    (fields : List (String × JValue)) (elems : List JValue) (paths : List String)
    (hp : jsonParse body = some (JValue.obj fields))
    (hs : objGet fields "sources" = some (JValue.arr elems))
    (ha : allStrings elems = some paths) :
    ∃ fields2, updateSourceMapFile cwd body sp root = jsonStringify (JValue.obj fields2) ∧
      ∀ key : String, key ≠ "sources" → key ≠ "sourcesContent" →
        key ≠ "sourceRoot" → key ≠ "file" → objGet fields2 key = objGet fields key := by
  refine ⟨_, updateSourceMapFile_parsed cwd body sp root fields elems paths hp hs ha, ?_⟩
  intro key h1 h2 h3 h4
  rw [objGet_objSet_ne _ _ _ _ h4, objGet_objSet_ne _ _ _ _ h3,
    objGet_objDelete_ne _ _ _ h2, objGet_objSet_ne _ _ _ _ h1]

/-- Witness for C8: `mappings`, `names` and `version` pass through on a
concrete document, and so does the unrecognized field `extra`. -/
theorem c8_frame_fields_witness :
    (∃ fields2,
      updateSourceMapFile ("/") ("\x7b\"version\":3,\"sources\":[\"/proj/src/a.js\"],\"names\":[\"n\"],\"mappings\":\"AACA\",\"extra\":true\x7d")
          ("app.bundle") ("/proj/src") = jsonStringify (JValue.obj fields2) ∧
      ∀ key : String, key ≠ "sources" → key ≠ "sourcesContent" →
        key ≠ "sourceRoot" → key ≠ "file" →
        objGet fields2 key = objGet
          [("version", JValue.num "3"),
           ("sources", JValue.arr [JValue.str "/proj/src/a.js"]),
           ("names", JValue.arr [JValue.str "n"]),
           ("mappings", JValue.str "AACA"),
           ("extra", JValue.bool true)] key) :=
  c8_frame_fields ("/") _ ("app.bundle") ("/proj/src")
    [("version", JValue.num "3"),
     ("sources", JValue.arr [JValue.str "/proj/src/a.js"]),
     ("names", JValue.arr [JValue.str "n"]),
     ("mappings", JValue.str "AACA"),
     ("extra", JValue.bool true)]
    [JValue.str "/proj/src/a.js"] ["/proj/src/a.js"] rfl rfl rfl

/-- C7 counterexample: normalization is not idempotent.  Starting from a raw
document with the absolute entry `/proj/src/app/index.js`, one application
(root `/proj/src`, working directory `/`) yields the already-normalized
document with `sources = ["app/index.js"]`, `sourceRoot = ""` and
`sourcesContent` absent; applying `updateSourceMapFile` again with the same
script path and root re-resolves the now-relative entry against the working
directory and produces `["../../app/index.js"]`, so the `sources` values are
not the same, contradicting the claim. -/
theorem c7_counterexample :
    sourcesOfText (updateSourceMapFile ("/")
        (updateSourceMapFile ("/") ("\x7b\"version\":3,\"sources\":[\"/proj/src/app/index.js\"],\"names\":[],\"mappings\":\"AAAA\"\x7d") ("script.js") ("/proj/src"))
        ("script.js") ("/proj/src")) = some ["../../app/index.js"] ∧
    sourcesOfText (updateSourceMapFile ("/") ("\x7b\"version\":3,\"sources\":[\"/proj/src/app/index.js\"],\"names\":[],\"mappings\":\"AAAA\"\x7d") ("script.js") ("/proj/src"))
      = some ["app/index.js"] := by
  constructor
  · rfl
  · rfl

/-- C7 amended: re-normalizing an already-normalized document (one whose
`sourceRoot` is already `""` and whose `sourcesContent` is already absent)
yields the same `sourceRoot` value and sets `file` to the supplied script
path (hence leaves it unchanged when it already equals it); the `sources`
entries, however, are re-relativized through `updateSourceMapPath` against
the process working directory and are preserved only in special cases such
as `cwd` equal to the sources root, not in general. -/
theorem c7_renormalize_governed (cwd body sp root : String)
    (fields : List (String × JValue)) (elems : List JValue) (paths : List String)
    (hp : jsonParse body = some (JValue.obj fields))
    (hs : objGet fields "sources" = some (JValue.arr elems))
    (ha : allStrings elems = some paths)
    (hroot : objGet fields "sourceRoot" = some (JValue.str ""))
    (_hsc : objGet fields "sourcesContent" = none) :
    ∃ fields2, updateSourceMapFile cwd body sp root = jsonStringify (JValue.obj fields2) ∧
      objGet fields2 "sourceRoot" = objGet fields "sourceRoot" ∧
      objGet fields2 "file" = some (JValue.str sp) ∧
      objGet fields2 "sources" =
        some (JValue.arr ((paths.map (fun p => updateSourceMapPath cwd p root)).map JValue.str)) := by
  refine ⟨_, updateSourceMapFile_parsed cwd body sp root fields elems paths hp hs ha, ?_, ?_, ?_⟩
  · rw [hroot, objGet_objSet_ne _ _ _ _ (by decide), objGet_objSet_self]
  · rw [objGet_objSet_self]
  · rw [objGet_objSet_ne _ _ _ _ (by decide), objGet_objSet_ne _ _ _ _ (by decide),
      objGet_objDelete_ne _ _ _ (by decide), objGet_objSet_self]

/-- Witness for the amended C7 on a concrete already-normalized document. -/
theorem c7_renormalize_governed_witness :
    ∃ fields2,
      updateSourceMapFile ("/proj/src") ("\x7b\"version\":3,\"sources\":[\"app/index.js\"],\"names\":[],\"mappings\":\"AAAA\",\"sourceRoot\":\"\",\"file\":\"script.js\"\x7d")
          ("script.js") ("/proj/src") = jsonStringify (JValue.obj fields2) ∧
      objGet fields2 "sourceRoot" = objGet
        [("version", JValue.num "3"),
         ("sources", JValue.arr [JValue.str "app/index.js"]),
         ("names", JValue.arr []),
         ("mappings", JValue.str "AAAA"),
         ("sourceRoot", JValue.str ""),
         ("file", JValue.str "script.js")] "sourceRoot" ∧
      objGet fields2 "file" = some (JValue.str ("script.js")) ∧
      objGet fields2 "sources" =
        some (JValue.arr ((["app/index.js"].map
          (fun p => updateSourceMapPath ("/proj/src") p ("/proj/src"))).map JValue.str)) :=
  c7_renormalize_governed ("/proj/src") _ ("script.js") ("/proj/src")
    [("version", JValue.num "3"),
     ("sources", JValue.arr [JValue.str "app/index.js"]),
     ("names", JValue.arr []),
     ("mappings", JValue.str "AAAA"),
     ("sourceRoot", JValue.str ""),
     ("file", JValue.str "script.js")]
    [JValue.str "app/index.js"] ["app/index.js"] rfl rfl rfl rfl rfl

/-- C3: whenever the input text does not parse as a structured source-map
document — `JSON.parse` fails, or whatever it produces makes the `try` body
throw (not an object, no `sources` array, a non-string entry) —
`updateSourceMapFile` returns the original input text unchanged, and the
exception does not escape. -/
theorem c3_parse_failure (cwd body sp root : String)
    (h : ∀ j, jsonParse body = some j → transformDoc cwd sp root j = none) :
    updateSourceMapFile cwd body sp root = body := by
  unfold updateSourceMapFile
  cases hj : jsonParse body with
  | none => rfl
  | some j => simp [h j hj]

/-- Witness for C3 on concrete malformed text. -/
theorem c3_parse_failure_witness :
    updateSourceMapFile ("/") ("\x7bnot json") ("s.js") ("/r") = "\x7bnot json" := by
  apply c3_parse_failure
  intro j hj
  rw [show jsonParse ("\x7bnot json") = none from rfl] at hj
  exact Option.noConfusion hj

/-- Resolution is attempted only after the locator succeeded. -/
theorem getSourceMapURL_of_locator_none (u : Url) (body : String)
    (h : getSourceMapRelativeUrl body = none) : getSourceMapURL u body = Except.ok none := by
  unfold getSourceMapURL
  rw [h]

/-- C6: for every script body in which the reference-comment pattern has no
match, the locator returns `null`, and `getSourceMapURL` returns `null` for
every script location, without parsing or resolving anything. -/
theorem c6_not_found (u : Url) (body : String) (h : scanSM [] body.data = none) :
    getSourceMapRelativeUrl body = none ∧ getSourceMapURL u body = Except.ok none := by
  have hl : getSourceMapRelativeUrl body = none := by
    unfold getSourceMapRelativeUrl
    rw [h]
    rfl
  exact ⟨hl, getSourceMapURL_of_locator_none u body hl⟩

/-- Witness for C6 on a concrete comment-free body and script location. -/
theorem c6_not_found_witness :
    ∃ su, urlParse ("http://localhost:8081/index.ios.bundle") = some su ∧
      (getSourceMapRelativeUrl ("var x = 1;\nconsole.log(x);") = none ∧
        getSourceMapURL su ("var x = 1;\nconsole.log(x);") = Except.ok none) :=
  ⟨_, rfl, c6_not_found _ _ rfl⟩

/-- C9 counterexample: `updateScriptPaths` is a public operation and does
raise for some input — a location whose `pathname` is `null` (as produced,
for example, by `url.parse("")`) makes `path.basename` throw a `TypeError`,
modelled by the `none` result. -/
theorem c9_counterexample :
    ∃ u, urlParse ("") = some u ∧ updateScriptPathsE ("x") u = none :=
  ⟨_, rfl, rfl⟩

/-- C9 amended: `updateSourceMapFile` never raises (every throw inside its
`try` returns the input unchanged, see `c3_parse_failure`), and
`updateScriptPaths` never raises provided the supplied location carries a
pathname string; but the public operations are not all raise-free: a
`null` pathname makes `updateScriptPaths` throw a `TypeError` (the
counterexample), and `getSourceMapURL` lets a `URIError` escape, for any
script location, when the legacy `url.parse` cannot percent-decode the
auth section of the extracted reference, as on the body
`//# sourceMappingURL=http://a%@b`. -/
theorem c9_no_raise (body : String) (u : Url) (p : String) (h : u.pathname = some p)
    (scriptUrl : Url) :
    (updateScriptPathsE body u).isSome = true ∧
    getSourceMapURL scriptUrl ("//# sourceMappingURL=http://a%@b") = Except.error () := by
  constructor
  · unfold updateScriptPathsE
    rw [h]
    simp
  · rfl

/-- Witness for the amended C9. -/
theorem c9_no_raise_witness :
    ∃ u, urlParse ("http://h/dir/new.map") = some u ∧
      ((updateScriptPathsE ("//# sourceMappingURL=a.map") u).isSome = true ∧
        getSourceMapURL u ("//# sourceMappingURL=http://a%@b") = Except.error ()) :=
  ⟨_, rfl, c9_no_raise _ _ ("/dir/new.map") rfl _⟩

/-! ## C10: the single space in the reference-comment pattern -/

theorem hasDS_cons (a : Char) (x : List Char) (ha : a ≠ '/') (hx : x ≠ []) :
    hasDS (a :: x) = hasDS x := by
  cases x with
  | nil => exact absurd rfl hx
  | cons b t => simp [hasDS, ha]

theorem scanSM_none_of_no_ds (l : List Char) (h : hasDS l = false) :
    ∀ rev, scanSM rev l = none := by
  induction l with
  | nil => intro rev; rfl
  | cons c rest ih =>
    intro rev
    have hm : matchMarker (c :: rest) = none := by
      cases rest with
      | nil => rfl
      | cons b t =>
        cases t with
        | nil => rfl
        | cons s u =>
          have hnds : ¬ (c = '/' ∧ b = '/') := by
            intro hcb
            obtain ⟨h1, h2⟩ := hcb
            subst h1
            subst h2
            simp [hasDS] at h
          simp only [matchMarker]
          rw [if_neg]
          intro hh
          exact hnds ⟨hh.1, hh.2.1⟩
    have hr : hasDS rest = false := by
      cases rest with
      | nil => rfl
      | cons b t =>
        simp [hasDS] at h ⊢
        exact h.2
    simp only [scanSM]
    rw [hm]
    exact ih hr (c :: rev)

theorem hasDS_spaces (n : Nat) :
    hasDS (List.replicate n ' ' ++ ("sourceMappingURL=foo.map".data)) = false := by
  induction n with
  | zero => decide
  | succ m ih =>
    rw [List.replicate_succ, List.cons_append,
      hasDS_cons _ _ (by decide)
        (by
          intro he
          exact absurd (List.append_eq_nil.mp he).2 (by decide))]
    exact ih

/-- C10: the locator recognizes the comment only with exactly one space
between the marker and `sourceMappingURL=`: over the family
`"//#" ++ n spaces ++ "sourceMappingURL=foo.map"`, the locator finds the
reference exactly when `n = 1`, and for `n ≠ 1` both
`getSourceMapRelativeUrl` and `getSourceMapURL` signal not-found. -/
theorem c10_exactly_one_space (n : Nat) (u : Url) :
    (getSourceMapRelativeUrl (oneSpaceFamily n) = none ↔ n ≠ 1) ∧
    (n ≠ 1 → getSourceMapURL u (oneSpaceFamily n) = Except.ok none) := by
  have key : n ≠ 1 → getSourceMapRelativeUrl (oneSpaceFamily n) = none := by
    intro hn
    match n, hn with
    | 0, _ => rfl
    | (m+2), _ =>
      have h2 : scanSM []
          ('/' :: '/' :: '#' :: (List.replicate (m+2) ' ' ++ ("sourceMappingURL=foo.map".data)))
            = none := by
        show scanSM ['#', '/', '/']
          (' ' :: ' ' :: (List.replicate m ' ' ++ ("sourceMappingURL=foo.map".data))) = none
        apply scanSM_none_of_no_ds
        rw [hasDS_cons _ _ (by decide) (by simp),
          hasDS_cons _ _ (by decide)
            (by
              intro he
              exact absurd (List.append_eq_nil.mp he).2 (by decide))]
        exact hasDS_spaces m
      unfold getSourceMapRelativeUrl oneSpaceFamily
      rw [string_data_mk, h2]
      rfl
  refine ⟨⟨?_, key⟩, fun hn => getSourceMapURL_of_locator_none u _ (key hn)⟩
  intro he h1
  subst h1
  rw [show getSourceMapRelativeUrl (oneSpaceFamily 1) = some "foo.map" from rfl] at he
  exact Option.noConfusion he

/-- Witness for C10 at zero and two spaces around a concrete location. -/
theorem c10_exactly_one_space_witness :
    ∃ su, urlParse ("http://h/b.bundle") = some su ∧
      (((getSourceMapRelativeUrl (oneSpaceFamily 0) = none ↔ (0 : Nat) ≠ 1) ∧
        ((0 : Nat) ≠ 1 → getSourceMapURL su (oneSpaceFamily 0) = Except.ok none)) ∧
       ((getSourceMapRelativeUrl (oneSpaceFamily 2) = none ↔ (2 : Nat) ≠ 1) ∧
        ((2 : Nat) ≠ 1 → getSourceMapURL su (oneSpaceFamily 2) = Except.ok none))) :=
  ⟨_, rfl, c10_exactly_one_space 0 _, c10_exactly_one_space 2 _⟩

/-! ## C4: rewriting the reference comment -/

theorem applyTemplate_lit (before matched after g1 g2 : List Char) (t : List Char)
    (h : '$' ∉ t) : applyTemplate before matched after g1 g2 t = t := by
  induction t with
  | nil => rfl
  | cons c t' ih =>
    cases t' with
    | nil => rfl
    | cons d u =>
      have hc : c ≠ '$' := by
        intro e
        exact h (by simp [e])
      simp only [applyTemplate]
      rw [if_neg hc]
      have := ih (fun hm => h (List.mem_cons_of_mem _ hm))
      rw [this]

/-- C4 amended: when the body contains a match of the reference-comment
pattern and the new location carries a pathname, `updateScriptPaths`
replaces the whole matched span — which extends over the value's trailing
whitespace, possibly across a line terminator (LF, CR, U+2028, U+2029) into
a following all-whitespace stretch — by the canonical `//# sourceMappingURL=<basename>` (`//#` even
when the original marker was `//@`), and leaves the text before and after
that span byte-for-byte unchanged.  (`$` is assumed absent from the
replacement text, else `String.prototype.replace` expands `$`-patterns.) -/
theorem c4_rewrite (body : String) (u : Url) (p : String)
    (pre : List Char) (sym : Char) (v r : List Char)
    (hp : u.pathname = some p)
    (hs : scanSM [] body.data = some (pre, sym, v, r))
    (hd : '$' ∉ ("//# sourceMappingURL=".data ++ (nodeBasename p).data)) :
    updateScriptPathsE body u =
      some (String.mk (pre ++ ("//# sourceMappingURL=".data ++ (nodeBasename p).data) ++ r)) := by
  unfold updateScriptPathsE
  rw [hp]
  simp only [hs]
  rw [applyTemplate_lit _ _ _ _ _ _ hd]

/-- Witness for the amended C4 on the spec's own example: the `//@` comment
is replaced by the `//#` form with the basename of the new location, other
lines untouched. -/
theorem c4_rewrite_witness :
    ∃ u, urlParse ("http://h/dir/new.map") = some u ∧
      updateScriptPathsE ("line1\n//@ sourceMappingURL=old/path.map\nline3") u =
        some ("line1\n//# sourceMappingURL=new.map\nline3") :=
  ⟨_, rfl, c4_rewrite _ _ ("/dir/new.map") (("line1\n").data) '@' (("old/path.map").data)
    (("\nline3").data) rfl rfl (by decide)⟩

/-- C4 counterexample: the claim "leaves all other lines unchanged" fails.
For the body `"//# sourceMappingURL=a\n\nb"` (comment line, blank line,
`"b"`) the matched span of `\s*$` backtracks across the first newline, so
the rewrite deletes the blank line: the result has lines
`[comment, "b"]`, not the claim's `[comment, "", "b"]`. -/
theorem c4_counterexample :
    ∃ u, urlParse ("http://h/new.map") = some u ∧
      ((updateScriptPathsE ("//# sourceMappingURL=a\n\nb") u).map splitLines
          = some ["//# sourceMappingURL=new.map", "b"] ∧
        splitLines ("//# sourceMappingURL=a\n\nb") = ["//# sourceMappingURL=a", "", "b"] ∧
        (["//# sourceMappingURL=new.map", "b"] : List String) ≠
          ["//# sourceMappingURL=new.map", "", "b"]) := by
  refine ⟨_, rfl, rfl, rfl, ?_⟩
  decide

/-! ## C5: what the lazy group captures -/

theorem lineTerm_ws (c : Char) (h : isLineTerm c = true) : isJsWs c = true := by
  simp only [isLineTerm, Bool.or_eq_true, beq_iff_eq] at h
  simp only [isJsWs, Bool.or_eq_true, Bool.and_eq_true, decide_eq_true_eq, beq_iff_eq]
  omega

theorem splitLastTerm_none_iff (l : List Char) :
    splitLastTerm l = none ↔ ∀ c ∈ l, isLineTerm c = false := by
  induction l with
  | nil => simp [splitLastTerm]
  | cons x t ih =>
    simp only [splitLastTerm]
    cases h : splitLastTerm t with
    | some p =>
      obtain ⟨a, b⟩ := p
      simp only [h]
      have ht : ¬ ∀ c ∈ t, isLineTerm c = false := fun hc => by
        rw [← ih, h] at hc
        exact Option.noConfusion hc
      constructor
      · intro he
        exact absurd he (by simp)
      · intro hall
        exact absurd (fun c hc => hall c (List.mem_cons_of_mem _ hc)) ht
    | none =>
      simp only [h]
      have ht : ∀ c ∈ t, isLineTerm c = false := ih.mp h
      by_cases hx : isLineTerm x = true
      · rw [if_pos hx]
        constructor
        · intro he
          exact absurd he (by simp)
        · intro hall
          exact absurd (hall x (List.mem_cons_self _ _)) (by simp [hx])
      · rw [if_neg hx]
        have hx2 : isLineTerm x = false := by simpa using hx
        constructor
        · intro _ c hc
          rcases List.mem_cons.mp hc with rfl | hm
          · exact hx2
          · exact ht c hm
        · intro _
          rfl

theorem dropWhile_nil_all {p : Char → Bool} (l : List Char) (h : l.dropWhile p = []) :
    ∀ x ∈ l, p x = true := by
  induction l with
  | nil => simp
  | cons c t ih =>
    by_cases hc : p c = true
    · rw [List.dropWhile_cons, if_pos hc] at h
      intro x hx
      rcases List.mem_cons.mp hx with rfl | hm
      · exact hc
      · exact ih h x hm
    · rw [List.dropWhile_cons, if_neg hc] at h
      exact absurd h (by simp)

theorem mem_of_mem_takeWhile {p : Char → Bool} {l : List Char} {x : Char}
    (h : x ∈ l.takeWhile p) : x ∈ l := by
  induction l with
  | nil => simp [List.takeWhile] at h
  | cons c t ih =>
    by_cases hc : p c = true
    · rw [List.takeWhile_cons, if_pos hc] at h
      rcases List.mem_cons.mp h with rfl | hm
      · exact List.mem_cons_self _ _
      · exact List.mem_cons_of_mem _ (ih hm)
    · rw [List.takeWhile_cons, if_neg hc] at h
      simp at h

theorem term_in_ws_run {q : Char → Bool} (l : List Char) (d : Char)
    (hd : isLineTerm d = true) (h : d ∈ l.takeWhile q) :
    ∀ x ∈ l.takeWhile (fun c => ! isLineTerm c), q x = true := by
  induction l with
  | nil => simp [List.takeWhile] at h
  | cons c t ih =>
    by_cases hq : q c = true
    · rw [List.takeWhile_cons, if_pos hq] at h
      by_cases hc : isLineTerm c = true
      · intro x hx
        rw [List.takeWhile_cons, if_neg (by simp [hc])] at hx
        exact absurd hx (by simp)
      · have hc2 : isLineTerm c = false := by simpa using hc
        intro x hx
        rw [List.takeWhile_cons, if_pos (by rw [hc2]; rfl)] at hx
        rcases List.mem_cons.mp hx with rfl | hm
        · exact hq
        · have hnt : d ∈ t.takeWhile q := by
            rcases List.mem_cons.mp h with he | hm2
            · exact absurd (he ▸ hd) hc
            · exact hm2
          exact ih hnt x hm
    · rw [List.takeWhile_cons, if_neg hq] at h
      simp at h

theorem wsEol_none_decomp (cs : List Char) :
    wsEol cs = none ↔
      (cs.dropWhile isJsWs ≠ [] ∧ ∀ c ∈ cs.takeWhile isJsWs, isLineTerm c = false) := by
  simp only [wsEol]
  rw [drop_takeWhile_length]
  cases h : cs.dropWhile isJsWs with
  | nil => simp
  | cons y ys =>
    simp only
    cases hsp : splitLastTerm (cs.takeWhile isJsWs) with
    | some p =>
      obtain ⟨a, b⟩ := p
      have hmem : ¬ ∀ c ∈ cs.takeWhile isJsWs, isLineTerm c = false := by
        intro hh
        rw [(splitLastTerm_none_iff _).mpr hh] at hsp
        exact Option.noConfusion hsp
      simp [hmem]
    | none =>
      simp only [hsp]
      constructor
      · intro _
        exact ⟨by simp, (splitLastTerm_none_iff _).mp hsp⟩
      · intro _
        trivial

theorem wsEol_none_iff (cs : List Char) :
    wsEol cs = none ↔
      ¬ (∀ x ∈ cs.takeWhile (fun c => ! isLineTerm c), isJsWs x = true) := by
  rw [wsEol_none_decomp]
  constructor
  · rintro ⟨hne, hnn⟩ hall
    cases hd : cs.dropWhile isJsWs with
    | nil => exact hne hd
    | cons d ds =>
      have hdw : isJsWs d = false := head_dropWhile cs d (by rw [hd]; rfl)
      have hd_nt : isLineTerm d = false := by
        rw [Bool.eq_false_iff]
        intro e
        rw [lineTerm_ws d e] at hdw
        exact Bool.noConfusion hdw
      have hsplit : cs = cs.takeWhile isJsWs ++ d :: ds := by
        conv_lhs => rw [← List.takeWhile_append_dropWhile (p := isJsWs) (l := cs)]
        rw [hd]
      have hdmem : d ∈ cs.takeWhile (fun c => ! isLineTerm c) := by
        rw [hsplit]
        rw [takeWhile_append_all _ _ (fun c hc => by
          show (! isLineTerm c) = true
          rw [hnn c hc]
          rfl)]
        refine List.mem_append_right _ ?_
        rw [List.takeWhile_cons, if_pos (by rw [hd_nt]; rfl)]
        exact List.mem_cons_self _ _
      exact absurd (hall d hdmem) (by simp [hdw])
  · intro hna
    by_contra hcon
    apply hna
    intro x hx
    by_cases hdw : cs.dropWhile isJsWs = []
    · exact dropWhile_nil_all cs hdw x (mem_of_mem_takeWhile hx)
    · have hnn : ¬ ∀ c ∈ cs.takeWhile isJsWs, isLineTerm c = false := by
        intro hh
        exact hcon ⟨hdw, hh⟩
      obtain ⟨d, hdm, hdt⟩ : ∃ d ∈ cs.takeWhile isJsWs, isLineTerm d = true := by
        by_contra hno
        apply hnn
        intro c hc
        rw [Bool.eq_false_iff]
        intro e
        exact hno ⟨c, hc, e⟩
      exact term_in_ws_run cs d hdt hdm x hx

theorem jsTrimRightL_all_ws (c : Char) (l : List Char)
    (hl : ∀ x ∈ l, isJsWs x = true) (hc : isJsWs c = false) :
    jsTrimRightL (c :: l) = [c] := by
  unfold jsTrimRightL
  rw [List.reverse_cons, dropWhile_append_all _ _ (fun x hx => hl x (List.mem_reverse.mp hx))]
  simp [List.dropWhile_cons, hc]

theorem jsTrimRightL_keep (c : Char) (l : List Char) (hl : ∃ x ∈ l, isJsWs x = false) :
    jsTrimRightL (c :: l) = c :: jsTrimRightL l := by
  unfold jsTrimRightL
  rw [List.reverse_cons, dropWhile_append_ex _ _ (by
    obtain ⟨x, hx, hxw⟩ := hl
    exact ⟨x, List.mem_reverse.mpr hx, hxw⟩)]
  simp

theorem lazyVal_spec (cs : List Char) : ∀ v r, lazyVal cs = some (v, r) →
    ((¬ ∀ x ∈ cs.takeWhile (fun c => ! isLineTerm c), isJsWs x = true) →
      v = jsTrimRightL (cs.takeWhile (fun c => ! isLineTerm c))) ∧
    ((∀ x ∈ cs.takeWhile (fun c => ! isLineTerm c), isJsWs x = true) →
      ∃ w t2, cs = w :: t2 ∧ v = [w]) := by
  induction cs with
  | nil => intro v r h; exact absurd h (by simp [lazyVal])
  | cons c t ih =>
    intro v r h
    simp only [lazyVal] at h
    by_cases hc : isLineTerm c = true
    · rw [if_pos hc] at h
      exact Option.noConfusion h
    · rw [if_neg hc] at h
      have hc2 : isLineTerm c = false := by simpa using hc
      have htw : (c :: t).takeWhile (fun c => ! isLineTerm c) =
          c :: t.takeWhile (fun c => ! isLineTerm c) := by
        rw [List.takeWhile_cons, if_pos (by rw [hc2]; rfl)]
      cases hws : wsEol t with
      | some r0 =>
        rw [hws] at h
        simp only [Option.some.injEq, Prod.mk.injEq] at h
        obtain ⟨hv, hr⟩ := h
        subst hv
        have hline : ∀ x ∈ t.takeWhile (fun c => ! isLineTerm c), isJsWs x = true := by
          by_contra hna
          rw [← wsEol_none_iff] at hna
          rw [hna] at hws
          exact Option.noConfusion hws
        constructor
        · intro hna
          have hcw : isJsWs c = false := by
            by_contra hcw
            simp only [Bool.not_eq_false] at hcw
            apply hna
            rw [htw]
            intro x hx
            rcases List.mem_cons.mp hx with rfl | hm
            · exact hcw
            · exact hline x hm
          rw [htw, jsTrimRightL_all_ws c _ hline hcw]
        · intro _
          exact ⟨c, t, rfl, rfl⟩
      | none =>
        rw [hws] at h
        have hex : ¬ ∀ x ∈ t.takeWhile (fun c => ! isLineTerm c), isJsWs x = true :=
          (wsEol_none_iff t).mp hws
        cases hlv : lazyVal t with
        | none =>
          rw [hlv] at h
          exact Option.noConfusion h
        | some q =>
          obtain ⟨v', r'⟩ := q
          rw [hlv] at h
          simp only [Option.some.injEq, Prod.mk.injEq] at h
          obtain ⟨hv, hr⟩ := h
          subst hv
          have ihq := ih v' r' hlv
          have hwit : ∃ x ∈ t.takeWhile (fun c => ! isLineTerm c), isJsWs x = false := by
            by_contra hno
            apply hex
            intro x hx
            by_contra hxx
            exact hno ⟨x, hx, by simp at hxx; simp [hxx]⟩
          constructor
          · intro _
            obtain ⟨x, hx, hxw⟩ := hwit
            rw [htw, jsTrimRightL_keep c _ ⟨x, hx, hxw⟩, ihq.1 hex]
          · intro hall
            rw [htw] at hall
            obtain ⟨x, hx, hxw⟩ := hwit
            exact absurd (hall x (List.mem_cons_of_mem _ hx)) (by simp [hxw])

theorem stripLit_sound (p : List Char) : ∀ l r, stripLit p l = some r → l = p ++ r := by
  induction p with
  | nil =>
    intro l r h
    simp only [stripLit, Option.some.injEq] at h
    rw [h, List.nil_append]
  | cons x ps ih =>
    intro l r h
    cases l with
    | nil => exact absurd h (by simp [stripLit])
    | cons c cs =>
      simp only [stripLit] at h
      by_cases hc : c = x
      · rw [if_pos hc] at h
        rw [List.cons_append, ← ih cs r h, hc]
      · rw [if_neg hc] at h
        exact Option.noConfusion h

theorem matchMarker_sound (l : List Char) (sym : Char) (after : List Char)
    (h : matchMarker l = some (sym, after)) :
    l = '/' :: '/' :: sym :: (" sourceMappingURL=".data ++ after) ∧
      (sym = '#' ∨ sym = '@') := by
  match l with
  | [] => exact Option.noConfusion h
  | [a] => exact Option.noConfusion h
  | [a, b] => exact Option.noConfusion h
  | a :: b :: s :: rest =>
    simp only [matchMarker] at h
    by_cases hcond : a = '/' ∧ b = '/' ∧ (s = '#' ∨ s = '@')
    · rw [if_pos hcond] at h
      cases hst : stripLit (" sourceMappingURL=".data) rest with
      | none => rw [hst] at h; exact Option.noConfusion h
      | some r2 =>
        rw [hst] at h
        simp only [Option.map_some', Option.some.injEq, Prod.mk.injEq] at h
        obtain ⟨hsym, haft⟩ := h
        obtain ⟨ha, hb, hs⟩ := hcond
        subst ha; subst hb; subst hsym; subst haft
        exact ⟨by rw [stripLit_sound _ _ _ hst], hs⟩
    · rw [if_neg hcond] at h
      exact Option.noConfusion h

theorem scanSM_sound (l : List Char) : ∀ rev pre sym v r,
    scanSM rev l = some (pre, sym, v, r) →
    ∃ mid tail, pre = rev.reverse ++ mid ∧
      l = mid ++ ('/' :: '/' :: sym :: (" sourceMappingURL=".data ++ tail)) ∧
      lazyVal tail = some (v, r) ∧ (sym = '#' ∨ sym = '@') := by
  induction l with
  | nil =>
    intro rev pre sym v r h
    exact absurd h (by simp [scanSM])
  | cons c rest ih =>
    intro rev pre sym v r h
    simp only [scanSM] at h
    cases hm : matchMarker (c :: rest) with
    | some q =>
      obtain ⟨sym0, after⟩ := q
      simp only [hm] at h
      cases hlv : lazyVal after with
      | some q2 =>
        obtain ⟨v0, r0⟩ := q2
        simp only [hlv] at h
        simp only [Option.some.injEq, Prod.mk.injEq] at h
        obtain ⟨hpre, hsym, hv, hr⟩ := h
        subst hpre; subst hsym; subst hv; subst hr
        obtain ⟨hdec, hsm⟩ := matchMarker_sound _ _ _ hm
        exact ⟨[], after, by simp, by simpa using hdec, hlv, hsm⟩
      | none =>
        simp only [hlv] at h
        obtain ⟨mid, tail, h1, h2, h3, h4⟩ := ih (c :: rev) pre sym v r h
        refine ⟨c :: mid, tail, ?_, ?_, h3, h4⟩
        · rw [h1]
          simp
        · rw [List.cons_append, ← h2]
    | none =>
      simp only [hm] at h
      obtain ⟨mid, tail, h1, h2, h3, h4⟩ := ih (c :: rev) pre sym v r h
      refine ⟨c :: mid, tail, ?_, ?_, h3, h4⟩
      · rw [h1]
        simp
      · rw [List.cons_append, ← h2]

/-- C5 amended: when the pattern matches, the locator returns the value of
the first (leftmost) match; relative to the text `tail` following the
matched `//# sourceMappingURL=` (or `//@`) literal, the value is the line
content (up to, not including, the first line terminator: LF, CR, U+2028 or
U+2029) trimmed of trailing whitespace whenever that line content has a non-whitespace character; when
the line content is entirely whitespace (and non-empty), the lazy group
captures exactly its first — whitespace — character instead, so the returned
value is not trimmed in that corner case. -/
theorem c5_first_match_value (body : String) (pre : List Char) (sym : Char) (v r : List Char)
    (h : scanSM [] body.data = some (pre, sym, v, r)) :
    getSourceMapRelativeUrl body = some (String.mk v) ∧
    (sym = '#' ∨ sym = '@') ∧
    ∃ tail, body.data = pre ++ ('/' :: '/' :: sym :: (" sourceMappingURL=".data ++ tail)) ∧
      ((¬ ∀ x ∈ tail.takeWhile (fun c => ! isLineTerm c), isJsWs x = true) →
        v = jsTrimRightL (tail.takeWhile (fun c => ! isLineTerm c))) ∧
      ((∀ x ∈ tail.takeWhile (fun c => ! isLineTerm c), isJsWs x = true) →
        ∃ w t2, tail = w :: t2 ∧ v = [w]) := by
  obtain ⟨mid, tail, h1, h2, h3, h4⟩ := scanSM_sound body.data [] pre sym v r h
  have hpre : pre = mid := by simpa using h1
  subst hpre
  refine ⟨?_, h4, tail, h2, (lazyVal_spec tail v r h3).1, (lazyVal_spec tail v r h3).2⟩
  unfold getSourceMapRelativeUrl
  rw [h]
  rfl

/-- Witness for the amended C5 on a concrete two-comment body: the first
match wins and its value is the line content trimmed of trailing spaces. -/
theorem c5_first_match_value_witness :
    getSourceMapRelativeUrl ("js();\n//# sourceMappingURL=maps/ok.map  \n//# sourceMappingURL=later.map")
        = some (String.mk (("maps/ok.map").data)) ∧
    ('#' = '#' ∨ '#' = '@') ∧
    ∃ tail, ("js();\n//# sourceMappingURL=maps/ok.map  \n//# sourceMappingURL=later.map").data
        = ("js();\n").data ++ ('/' :: '/' :: '#' :: (" sourceMappingURL=".data ++ tail)) ∧
      ((¬ ∀ x ∈ tail.takeWhile (fun c => ! isLineTerm c), isJsWs x = true) →
        ("maps/ok.map").data = jsTrimRightL (tail.takeWhile (fun c => ! isLineTerm c))) ∧
      ((∀ x ∈ tail.takeWhile (fun c => ! isLineTerm c), isJsWs x = true) →
        ∃ w t2, tail = w :: t2 ∧ ("maps/ok.map").data = [w]) :=
  c5_first_match_value _ (("js();\n").data) '#' (("maps/ok.map").data)
    (("\n//# sourceMappingURL=later.map").data) rfl

/-- C5 counterexample: for the body `"//# sourceMappingURL= "` (value region
a single space) the locator returns `" "` — the lazy group's one-character
capture — although the claim demands the value trimmed of trailing
whitespace, which here is `""`. -/
theorem c5_counterexample :
    getSourceMapRelativeUrl ("//# sourceMappingURL= ") = some (" ") ∧
    jsTrimRightL ((" ").data) = [] ∧ (" " : String) ≠ "" := by
  refine ⟨rfl, rfl, ?_⟩
  decide

/-! ## C2: resolution against the script location -/

theorem toLower_eq_self (c : Char) (h : c.toNat < 65 ∨ 90 < c.toNat) : c.toLower = c := by
  unfold Char.toLower
  rw [if_neg (by omega)]

theorem protoLowerChar_spec (c : Char) (h : protoLowerChar c = true) :
    isJsWs c = false ∧ protoChar c = true ∧ c.toLower = c := by
  simp only [protoLowerChar, Bool.or_eq_true, Bool.and_eq_true, decide_eq_true_eq,
    beq_iff_eq] at h
  refine ⟨?_, ?_, ?_⟩
  · rw [Bool.eq_false_iff]
    intro hw
    simp only [isJsWs, Bool.or_eq_true, Bool.and_eq_true, decide_eq_true_eq, beq_iff_eq] at hw
    omega
  · simp only [protoChar, Bool.or_eq_true, Bool.and_eq_true, decide_eq_true_eq, beq_iff_eq]
    omega
  · exact toLower_eq_self c (by omega)

theorem hostTokenChar_spec (c : Char)
    (h : hostChar c = true ∨ c = ':' ∨ isDigitCh c = true) :
    isHostEndCh c = false ∧ isNonHostChar c = false ∧ c ≠ '@' ∧
      isJsWs c = false ∧ c.toLower = c := by
  have hn : (97 ≤ c.toNat ∧ c.toNat ≤ 122) ∨ (48 ≤ c.toNat ∧ c.toNat ≤ 57) ∨
      c.toNat = 46 ∨ c.toNat = 45 ∨ c.toNat = 58 := by
    rcases h with h | h | h
    · simp only [hostChar, Bool.or_eq_true, Bool.and_eq_true, decide_eq_true_eq,
        beq_iff_eq] at h
      omega
    · subst h
      decide
    · simp only [isDigitCh, Bool.and_eq_true, decide_eq_true_eq] at h
      omega
  refine ⟨?_, ?_, ?_, ?_, ?_⟩
  · rw [Bool.eq_false_iff]
    intro hw
    simp only [isHostEndCh, Bool.or_eq_true, beq_iff_eq] at hw
    omega
  · rw [Bool.eq_false_iff]
    intro hw
    simp only [isNonHostChar, Bool.or_eq_true, beq_iff_eq] at hw
    omega
  · intro e
    subst e
    revert hn
    decide
  · rw [Bool.eq_false_iff]
    intro hw
    simp only [isJsWs, Bool.or_eq_true, Bool.and_eq_true, decide_eq_true_eq, beq_iff_eq] at hw
    omega
  · exact toLower_eq_self c (by omega)

theorem toLowerL_id (l : List Char) (h : ∀ c ∈ l, c.toLower = c) : toLowerL l = l := by
  unfold toLowerL
  exact List.map_congr_left h |>.trans (List.map_id l)

theorem splitLastChar_not_mem (c : Char) (l : List Char) (h : c ∉ l) :
    splitLastChar c l = none := by
  induction l with
  | nil => rfl
  | cons x t ih =>
    have hx : x ≠ c := by
      intro e
      exact h (by simp [e])
    simp only [splitLastChar]
    rw [ih (fun hm => h (List.mem_cons_of_mem _ hm))]
    simp [hx]

theorem replaceFirstHashL_id (l : List Char) (h : '#' ∉ l) : replaceFirstHashL l = l := by
  induction l with
  | nil => rfl
  | cons x t ih =>
    have hx : x ≠ '#' := by
      intro e
      exact h (by simp [e])
    simp only [replaceFirstHashL]
    rw [if_neg hx, ih (fun hm => h (List.mem_cons_of_mem _ hm))]

theorem escape_fold_id (l : List Char) (h : ∀ c ∈ l, c ≠ '?' ∧ c ≠ '#') :
    l.foldr (fun c acc =>
      (if c = '?' then ['%', '3', 'F'] else if c = '#' then ['%', '2', '3'] else [c]) ++ acc)
      [] = l := by
  induction l with
  | nil => rfl
  | cons x t ih =>
    have hx := h x (List.mem_cons_self _ _)
    simp only [List.foldr_cons]
    rw [if_neg hx.1, if_neg hx.2, ih (fun c hc => h c (List.mem_cons_of_mem _ hc))]
    rfl

theorem jsTrimL_id (l : List Char)
    (hh : ∀ c, l.head? = some c → isJsWs c = false)
    (hl : ∀ c, l.getLast? = some c → isJsWs c = false) : jsTrimL l = l := by
  unfold jsTrimL jsTrimLeftL jsTrimRightL
  have h1 : l.dropWhile isJsWs = l := by
    cases l with
    | nil => rfl
    | cons c t => rw [List.dropWhile_cons, if_neg (by simp [hh c rfl])]
  rw [h1]
  have h2 : l.reverse.dropWhile isJsWs = l.reverse := by
    cases hr : l.reverse with
    | nil => rfl
    | cons c t =>
      have : l.getLast? = some c := by
        rw [← List.head?_reverse, hr]
        rfl
      rw [List.dropWhile_cons, if_neg (by simp [hl c this])]
  rw [h2, List.reverse_reverse]

theorem jsTrimRightL_getLast (l : List Char) (c : Char)
    (h : (jsTrimRightL l).getLast? = some c) : isJsWs c = false := by
  unfold jsTrimRightL at h
  rw [List.getLast?_reverse] at h
  exact head_dropWhile _ c h

theorem hostOK_decomp (H : String) (hH : hostOK H = true) :
    (H.data.takeWhile (fun c => c ≠ ':') ≠ [] ∧
      (∀ c ∈ H.data.takeWhile (fun c => c ≠ ':'), hostChar c = true) ∧
      (H.data.takeWhile (fun c => c ≠ ':')).length ≤ 255) ∧
    (H.data.dropWhile (fun c => c ≠ ':') = [] ∨
      ∃ ds, H.data.dropWhile (fun c => c ≠ ':') = ':' :: ds ∧ ds ≠ [] ∧
        ∀ c ∈ ds, isDigitCh c = true) := by
  have e : H.data.drop ((H.data.takeWhile (fun c => c ≠ ':')).length) =
      H.data.dropWhile (fun c => c ≠ ':') := drop_takeWhile_length _ _
  simp only [hostOK, e] at hH
  cases hd : H.data.dropWhile (fun c => c ≠ ':') with
  | nil =>
    rw [hd] at hH
    simp only [Bool.and_eq_true, decide_eq_true_eq, List.all_eq_true] at hH
    exact ⟨⟨hH.1.1.1.1, hH.1.1.1.2, hH.1.1.2⟩, Or.inl rfl⟩
  | cons r ds =>
    rw [hd] at hH
    simp only [Bool.and_eq_true, decide_eq_true_eq, List.all_eq_true] at hH
    have hr : r = ':' := by
      have := head_dropWhile (p := fun c => decide (c ≠ ':')) H.data r (by rw [hd]; rfl)
      simpa using this
    subst hr
    exact ⟨⟨hH.1.1.1.1, hH.1.1.1.2, hH.1.1.2⟩, Or.inr ⟨ds, rfl, hH.2.1, hH.2.2⟩⟩

theorem hostOK_mem (H : String) (hH : hostOK H = true) :
    ∀ c ∈ H.data, hostChar c = true ∨ c = ':' ∨ isDigitCh c = true := by
  obtain ⟨⟨_, hname, _⟩, hrest⟩ := hostOK_decomp H hH
  intro c hc
  have hsplit : H.data = H.data.takeWhile (fun c => c ≠ ':') ++
      H.data.dropWhile (fun c => c ≠ ':') := (List.takeWhile_append_dropWhile _ _).symm
  rw [hsplit] at hc
  rcases List.mem_append.mp hc with hm | hm
  · exact Or.inl (hname c hm)
  · rcases hrest with hnil | ⟨ds, hds, _, hall⟩
    · rw [hnil] at hm
      exact absurd hm (by simp)
    · rw [hds] at hm
      rcases List.mem_cons.mp hm with rfl | hm2
      · exact Or.inr (Or.inl rfl)
      · exact Or.inr (Or.inr (hall c hm2))

theorem hostOK_ne_nil (H : String) (hH : hostOK H = true) : H.data ≠ [] := by
  obtain ⟨⟨hne, _, _⟩, _⟩ := hostOK_decomp H hH
  intro e
  rw [e] at hne
  exact hne rfl

theorem slashed_not_hostless (p : String) (h : isSlashedProto p = true) :
    isHostlessProto p = false := by
  have hm : p ∈ slashedProtocols := by
    simpa [isSlashedProto, List.contains_iff_exists_mem_beq] using h
  fin_cases hm <;> rfl

theorem protocolOK_decomp (p : String) (hp : protocolOK p = true) :
    p.data = p.data.dropLast ++ [':'] ∧ p.data.dropLast ≠ [] ∧
      ∀ c ∈ p.data.dropLast, protoLowerChar c = true := by
  simp only [protocolOK, Bool.and_eq_true, decide_eq_true_eq, beq_iff_eq,
    List.all_eq_true] at hp
  obtain ⟨⟨hne, hall⟩, hlast⟩ := hp
  have hdne : p.data ≠ [] := by
    intro e
    rw [e] at hne
    exact hne rfl
  refine ⟨?_, hne, hall⟩
  have hg := List.dropLast_append_getLast hdne
  have hgl : p.data.getLast hdne = ':' := by
    have := List.getLast?_eq_getLast p.data hdne
    rw [hlast] at this
    exact (Option.some.injEq _ _ ▸ this).symm
  conv_lhs => rw [← hg]
  rw [hgl]

theorem parseHostPort_no_colon (l : List Char) (h : ':' ∉ l) :
    parseHostPort l = (l, none) := by
  unfold parseHostPort
  cases hd : l.reverse.drop ((l.reverse.takeWhile isDigitCh).length) with
  | nil => simp [hd]
  | cons c rem =>
    have hc : c ∈ l := by
      have h1 : c ∈ l.reverse.drop ((l.reverse.takeWhile isDigitCh).length) := by
        rw [hd]
        exact List.mem_cons_self _ _
      exact List.mem_reverse.mp (List.mem_of_mem_drop h1)
    have hne : c ≠ ':' := fun e => h (e ▸ hc)
    simp [hd, hne]

theorem parseHostPort_port (name ds : List Char) (hds : ds ≠ [])
    (hall : ∀ c ∈ ds, isDigitCh c = true) :
    parseHostPort (name ++ ':' :: ds) = (name, some ds) := by
  simp only [parseHostPort]
  have hrev : (name ++ ':' :: ds).reverse = ds.reverse ++ ':' :: name.reverse := by
    rw [List.reverse_append, List.reverse_cons, List.append_assoc]
    rfl
  rw [hrev]
  have htw : (ds.reverse ++ ':' :: name.reverse).takeWhile isDigitCh = ds.reverse :=
    takeWhile_append_stop _ _ (fun c hc => hall c (List.mem_reverse.mp hc))
      (fun c hc => by
        simp only [List.head?_cons, Option.some.injEq] at hc
        subst hc
        rfl)
  rw [htw, List.drop_left]
  have hdr : ds.reverse ≠ [] := by simpa using hds
  simp [hdr]

theorem takeWhile_all {p : Char → Bool} (l : List Char) (h : ∀ c ∈ l, p c = true) :
    l.takeWhile p = l := by
  induction l with
  | nil => rfl
  | cons c t ih =>
    rw [List.takeWhile_cons, if_pos (h c (List.mem_cons_self _ _)),
      ih (fun c hc => h c (List.mem_cons_of_mem _ hc))]

theorem getLast?_append_ne (a b : List Char) (h : b ≠ []) :
    (a ++ b).getLast? = b.getLast? := by
  cases b with
  | nil => exact absurd rfl h
  | cons x xs =>
    rw [List.getLast?_append]
    cases hxx : (x :: xs).getLast? with
    | none =>
      rw [List.getLast?_eq_getLast _ (by simp)] at hxx
      exact Option.noConfusion hxx
    | some y => rfl

theorem dropWhile_all_nil {p : Char → Bool} (l : List Char) (h : ∀ c ∈ l, p c = true) :
    l.dropWhile p = [] := by
  induction l with
  | nil => rfl
  | cons c t ih =>
    rw [List.dropWhile_cons, if_pos (h c (List.mem_cons_self _ _))]
    exact ih (fun c hc => h c (List.mem_cons_of_mem _ hc))

theorem contains_true_iff (l : List Char) (c : Char) : l.contains c = true ↔ c ∈ l := by
  rw [List.contains_iff_exists_mem_beq]
  constructor
  · rintro ⟨x, hx, hbeq⟩
    have he : c = x := by simpa using hbeq
    exact he ▸ hx
  · intro h
    exact ⟨c, h, by simp⟩

theorem escAutoChar_id (c : Char) (h : autoEscapeChar c = false) : escAutoChar c = [c] := by
  unfold escAutoChar
  rw [if_neg (by simp [h])]

theorem escAuto_id (l : List Char) (h : ∀ c ∈ l, autoEscapeChar c = false) : escAuto l = l := by
  induction l with
  | nil => rfl
  | cons c t ih =>
    show escAutoChar c ++ escAuto t = c :: t
    rw [escAutoChar_id c (h c (List.mem_cons_self _ _)),
      ih (fun c hc => h c (List.mem_cons_of_mem _ hc))]
    rfl

theorem backslashFix_id (l : List Char) (h : '\\' ∉ l) : backslashFixL l = l := by
  simp only [backslashFixL]
  have hmap : ∀ l2 : List Char, (∀ c ∈ l2, c ≠ '\\') →
      l2.map (fun c => if c = '\\' then '/' else c) = l2 := by
    intro l2
    induction l2 with
    | nil => intro _; rfl
    | cons x xs ih =>
      intro hl2
      rw [List.map_cons, if_neg (hl2 x (List.mem_cons_self _ _)),
        ih (fun c hc => hl2 c (List.mem_cons_of_mem _ hc))]
  rw [hmap _ (fun c hc he => h (he ▸ mem_of_mem_takeWhile hc)),
    drop_takeWhile_length, List.takeWhile_append_dropWhile]

theorem authPat_no_at (l : List Char) (h : '@' ∉ l) : authPat l = false := by
  cases l with
  | nil => rfl
  | cons a l1 =>
    cases l1 with
    | nil => rfl
    | cons b r =>
      simp only [authPat]
      cases hd : r.drop ((r.takeWhile (fun c => (c ≠ '@') && (c ≠ '/'))).length) with
      | nil => simp [hd]
      | cons c2 r2 =>
        have hc2 : c2 ∈ a :: b :: r := by
          have hm0 : c2 ∈ r.drop ((r.takeWhile (fun c => (c ≠ '@') && (c ≠ '/'))).length) := by
            rw [hd]
            exact List.mem_cons_self _ _
          exact List.mem_cons_of_mem _ (List.mem_cons_of_mem _ (List.mem_of_mem_drop hm0))
        have hne : c2 ≠ '@' := fun he => h (he ▸ hc2)
        simp [hd, hne]

theorem simplePath_not_slash (c0 : Char) (r : List Char) (h : c0 ≠ '/') :
    simplePath (c0 :: r) = none := by
  simp only [simplePath]
  rw [if_neg h]

theorem slashed_not_unsafe (p : String) (h : isSlashedProto p = true) :
    isUnsafeProto p = false := by
  have hm : p ∈ slashedProtocols := by
    simpa [isSlashedProto, List.contains_iff_exists_mem_beq] using h
  fin_cases hm <;> rfl

theorem protoLowerChar_more (c : Char) (h : protoLowerChar c = true) :
    c ≠ '/' ∧ c ≠ '\\' := by
  constructor <;> (intro he; subst he; revert h; decide)

theorem urlParse_core_route (s : String)
    (hsp : simplePath (jsTrimL (backslashFixL s.data)) = none) :
    urlParse s = urlParseCore (jsTrimL (backslashFixL s.data)) := by
  simp only [urlParse]
  by_cases hsh : ((backslashFixL s.data).contains '#') = true
  · rw [if_pos hsh]
  · rw [if_neg hsh]
    simp only [hsp]

theorem parseHostSectionE_clean (H : String) (rest : List Char) (hH : hostOK H = true)
    (hrest : ∀ c, rest.head? = some c → isHostEndCh c = true ∧ isNonHostChar c = true) :
    ∃ hn pt, parseHostSectionE (H.data ++ rest) = some (none, some H, hn, pt, rest) := by
  have hspec := fun c hc => hostTokenChar_spec c (hostOK_mem H hH c hc)
  simp only [parseHostSectionE]
  have h1 : (H.data ++ rest).takeWhile (fun c => ! isHostEndCh c) = H.data :=
    takeWhile_append_stop _ _ (fun c hc => by rw [(hspec c hc).1]; rfl)
      (fun c hc => by rw [(hrest c hc).1]; rfl)
  rw [h1]
  have h2 : splitLastChar '@' H.data = none :=
    splitLastChar_not_mem _ _ (fun hm => (hspec _ hm).2.2.1 rfl)
  rw [h2]
  simp only [hostTail]
  have h3 : (H.data ++ rest).takeWhile (fun c => ! isNonHostChar c) = H.data :=
    takeWhile_append_stop _ _ (fun c hc => by rw [(hspec c hc).2.1]; rfl)
      (fun c hc => by rw [(hrest c hc).2]; rfl)
  rw [h3, List.drop_left]
  have hlow : ∀ c ∈ H.data, c.toLower = c := fun c hc => (hspec c hc).2.2.2.2
  obtain ⟨⟨hname_ne, hname_all, hname_len⟩, hrest2⟩ := hostOK_decomp H hH
  have hsplit : H.data = H.data.takeWhile (fun c => c ≠ ':') ++
      H.data.dropWhile (fun c => c ≠ ':') := (List.takeWhile_append_dropWhile _ _).symm
  rcases hrest2 with hnil | ⟨ds, hds, hds_ne, hds_all⟩
  · have hnc : ':' ∉ H.data := by
      intro hm
      rw [hsplit] at hm
      rcases List.mem_append.mp hm with hm2 | hm2
      · exact absurd (mem_takeWhile hm2) (by simp)
      · rw [hnil] at hm2
        exact absurd hm2 (by simp)
    simp only [parseHostPort_no_colon _ hnc]
    have htw_all : H.data.takeWhile (fun c => c ≠ ':') = H.data := by
      conv_rhs => rw [hsplit]
      rw [hnil, List.append_nil]
    have hlen : ¬ (255 < H.data.length) := by
      rw [htw_all] at hname_len
      omega
    rw [if_neg hlen]
    refine ⟨some (String.mk (toLowerL H.data)), none, ?_⟩
    rw [toLowerL_id _ hlow]
    simp
  · have hdata : H.data = H.data.takeWhile (fun c => c ≠ ':') ++ ':' :: ds := by
      conv_lhs => rw [hsplit]
      rw [hds]
    have hpp : parseHostPort H.data = (H.data.takeWhile (fun c => c ≠ ':'), some ds) := by
      have hport := parseHostPort_port (H.data.takeWhile (fun c => c ≠ ':')) ds hds_ne hds_all
      rw [← hdata] at hport
      exact hport
    simp only [hpp]
    have hlen : ¬ (255 < (H.data.takeWhile (fun c => c ≠ ':')).length) := by omega
    rw [if_neg hlen]
    refine ⟨some (String.mk (toLowerL (H.data.takeWhile (fun c => c ≠ ':')))),
      some (String.mk ds), ?_⟩
    rw [toLowerL_id _ (fun c hc => hlow c (mem_of_mem_takeWhile hc))]
    have hstr : String.mk (H.data.takeWhile (fun c => c ≠ ':') ++ ':' :: ds) = H := by
      rw [← hdata]
    simp
    simpa using hstr

theorem urlParseCore_relative (t : List Char) (hat2 : '@' ∉ ('/' :: t)) :
    urlParseCore ('/' :: t) = some (urlTail none none (none, none, none, none, '/' :: t)) := by
  have hAP : authPat ('/' :: t) = false := authPat_no_at _ hat2
  simp only [urlParseCore]
  simp +decide [hAP, List.takeWhile_cons]

theorem urlTail_relative (t : List Char) (hesc : escAuto ('/' :: t) = '/' :: t) :
    (urlTail none none (none, none, none, none, '/' :: t)).slashes = none ∧
    (urlTail none none (none, none, none, none, '/' :: t)).auth = none ∧
    (urlTail none none (none, none, none, none, '/' :: t)).hash =
      (if ('/' :: t).dropWhile (fun c => c ≠ '#') = [] then none
       else some (String.mk (('/' :: t).dropWhile (fun c => c ≠ '#')))) ∧
    (urlTail none none (none, none, none, none, '/' :: t)).search =
      (if (('/' :: t).takeWhile (fun c => c ≠ '#')).dropWhile (fun c => c ≠ '?') = [] then none
       else some (String.mk
         ((('/' :: t).takeWhile (fun c => c ≠ '#')).dropWhile (fun c => c ≠ '?')))) ∧
    (urlTail none none (none, none, none, none, '/' :: t)).query =
      (if (('/' :: t).takeWhile (fun c => c ≠ '#')).dropWhile (fun c => c ≠ '?') = [] then none
       else some (String.mk
         (((('/' :: t).takeWhile (fun c => c ≠ '#')).dropWhile (fun c => c ≠ '?')).drop 1))) ∧
    (urlTail none none (none, none, none, none, '/' :: t)).pathname =
      some (String.mk ((('/' :: t).takeWhile (fun c => c ≠ '#')).takeWhile (fun c => c ≠ '?'))) := by
  have hd1 : ('/' :: t).drop ((('/' :: t).takeWhile (fun c => c ≠ '#')).length)
      = ('/' :: t).dropWhile (fun c => c ≠ '#') := drop_takeWhile_length _ _
  have hd2 : (('/' :: t).takeWhile (fun c => c ≠ '#')).drop
      (((('/' :: t).takeWhile (fun c => c ≠ '#')).takeWhile (fun c => c ≠ '?')).length)
      = (('/' :: t).takeWhile (fun c => c ≠ '#')).dropWhile (fun c => c ≠ '?') :=
    drop_takeWhile_length _ _
  have hne : (('/' :: t).takeWhile (fun c => c ≠ '#')).takeWhile (fun c => c ≠ '?') ≠ [] := by
    rw [List.takeWhile_cons, if_pos (by decide), List.takeWhile_cons, if_pos (by decide)]
    simp
  refine ⟨rfl, rfl, ?_, ?_, ?_, ?_⟩
  · simp only [urlTail, hesc, Bool.false_and, Bool.false_eq_true, if_false]
    rw [hd1]
  · simp only [urlTail, hesc, Bool.false_and, Bool.false_eq_true, if_false]
    rw [hd2]
  · simp only [urlTail, hesc, Bool.false_and, Bool.false_eq_true, if_false]
    rw [hd2]
  · simp only [urlTail, hesc, Bool.false_and, Bool.false_eq_true, if_false]
    rw [if_neg hne]

theorem simplePath_inv (l g1 : List Char) (g2 : Option (List Char))
    (h : simplePath l = some (g1, g2)) :
    ∃ t, l = '/' :: t ∧ g1 = '/' :: t.takeWhile (fun c => (c ≠ '?') && ! isJsWs c) ∧
      ((g2 = none ∧ t.dropWhile (fun c => (c ≠ '?') && ! isJsWs c) = []) ∨
       (∃ q, g2 = some ('?' :: q) ∧
         t.dropWhile (fun c => (c ≠ '?') && ! isJsWs c) = '?' :: q)) := by
  cases l with
  | nil => exact absurd h (by simp [simplePath])
  | cons c0 rest =>
    simp only [simplePath] at h
    by_cases hc0 : c0 = '/'
    · rw [if_pos hc0] at h
      subst hc0
      by_cases h2 : rest.take 2 = ['/', '/']
      · rw [if_pos h2] at h
        exact Option.noConfusion h
      · rw [if_neg h2] at h
        have hdd : rest.drop ((rest.takeWhile (fun c => (c ≠ '?') && ! isJsWs c)).length)
            = rest.dropWhile (fun c => (c ≠ '?') && ! isJsWs c) := drop_takeWhile_length _ _
        rw [hdd] at h
        cases hrem : rest.dropWhile (fun c => (c ≠ '?') && ! isJsWs c) with
        | nil =>
          simp only [hrem, Option.some.injEq, Prod.mk.injEq] at h
          exact ⟨rest, rfl, h.1.symm, Or.inl ⟨h.2.symm, hrem⟩⟩
        | cons c q =>
          simp only [hrem] at h
          by_cases hcq : c = '?' ∧ q.all (fun d => ! isJsWs d)
          · rw [if_pos hcq] at h
            simp only [Option.some.injEq, Prod.mk.injEq] at h
            refine ⟨rest, rfl, h.1.symm, Or.inr ⟨q, ?_, ?_⟩⟩
            · rw [← h.2, hcq.1]
            · rw [hrem, hcq.1]
          · rw [if_neg hcq] at h
            exact Option.noConfusion h
    · rw [if_neg hc0] at h
      exact Option.noConfusion h

theorem urlParse_relative (t : List Char)
    (hat : ∀ c ∈ ('/' :: t), autoEscapeChar c = false ∧ c ≠ '@')
    (hlast : ∀ c, ('/' :: t).getLast? = some c → isJsWs c = false) :
    ∃ m, urlParse (String.mk ('/' :: t)) = some m ∧
      m.slashes = none ∧ m.auth = none ∧
      m.hash = (if ('/' :: t).dropWhile (fun c => c ≠ '#') = [] then none
        else some (String.mk (('/' :: t).dropWhile (fun c => c ≠ '#')))) ∧
      m.search = (if (('/' :: t).takeWhile (fun c => c ≠ '#')).dropWhile (fun c => c ≠ '?') = []
        then none
        else some (String.mk
          ((('/' :: t).takeWhile (fun c => c ≠ '#')).dropWhile (fun c => c ≠ '?')))) ∧
      m.query = (if (('/' :: t).takeWhile (fun c => c ≠ '#')).dropWhile (fun c => c ≠ '?') = []
        then none
        else some (String.mk
          (((('/' :: t).takeWhile (fun c => c ≠ '#')).dropWhile (fun c => c ≠ '?')).drop 1))) ∧
      m.pathname = some (String.mk
        ((('/' :: t).takeWhile (fun c => c ≠ '#')).takeWhile (fun c => c ≠ '?'))) := by
  have hat2 : '@' ∉ ('/' :: t) := fun hm => (hat _ hm).2 rfl
  have hbs : '\\' ∉ ('/' :: t) := fun hm => absurd ((hat _ hm).1) (by decide)
  have hesc : escAuto ('/' :: t) = '/' :: t := escAuto_id _ (fun c hc => (hat c hc).1)
  have hslow : ∃ m, urlParseCore ('/' :: t) = some m ∧
      m.slashes = none ∧ m.auth = none ∧
      m.hash = (if ('/' :: t).dropWhile (fun c => c ≠ '#') = [] then none
        else some (String.mk (('/' :: t).dropWhile (fun c => c ≠ '#')))) ∧
      m.search = (if (('/' :: t).takeWhile (fun c => c ≠ '#')).dropWhile (fun c => c ≠ '?') = []
        then none
        else some (String.mk
          ((('/' :: t).takeWhile (fun c => c ≠ '#')).dropWhile (fun c => c ≠ '?')))) ∧
      m.query = (if (('/' :: t).takeWhile (fun c => c ≠ '#')).dropWhile (fun c => c ≠ '?') = []
        then none
        else some (String.mk
          (((('/' :: t).takeWhile (fun c => c ≠ '#')).dropWhile (fun c => c ≠ '?')).drop 1))) ∧
      m.pathname = some (String.mk
        ((('/' :: t).takeWhile (fun c => c ≠ '#')).takeWhile (fun c => c ≠ '?'))) := by
    obtain ⟨p1, p2, p3, p4, p5, p6⟩ := urlTail_relative t hesc
    exact ⟨_, urlParseCore_relative t hat2, p1, p2, p3, p4, p5, p6⟩
  have hbf : backslashFixL ('/' :: t) = '/' :: t := backslashFix_id _ hbs
  have htr : jsTrimL ('/' :: t) = '/' :: t :=
    jsTrimL_id _ (fun c hc => by
      simp only [List.head?_cons, Option.some.injEq] at hc
      subst hc
      decide) hlast
  simp only [urlParse, string_data_mk, hbf, htr]
  by_cases hc : (('/' :: t).contains '#') = true
  · rw [if_pos hc]
    exact hslow
  · rw [if_neg hc]
    have hnoHash : '#' ∉ ('/' :: t) := fun hm => hc ((contains_true_iff _ _).mpr hm)
    cases hsp : simplePath ('/' :: t) with
    | none =>
      simp only [hsp]
      exact hslow
    | some g =>
      obtain ⟨g1, g2⟩ := g
      simp only [hsp]
      obtain ⟨t2, hteq, hg1, hcase⟩ := simplePath_inv _ _ _ hsp
      injection hteq with h1 h2
      subst h2
      have htwH : ('/' :: t).takeWhile (fun c => c ≠ '#') = '/' :: t :=
        takeWhile_all _ (fun c hcm => by
          simp only [decide_eq_true_eq]
          intro he
          exact hnoHash (he ▸ hcm))
      have hdwH : ('/' :: t).dropWhile (fun c => c ≠ '#') = [] :=
        dropWhile_all_nil _ (fun c hcm => by
          simp only [decide_eq_true_eq]
          intro he
          exact hnoHash (he ▸ hcm))
      rcases hcase with ⟨hg2, hdwP⟩ | ⟨q, hg2, hdwP⟩
      · have hallP : ∀ c ∈ t, ((c ≠ '?') && ! isJsWs c) = true := by
          have := dropWhile_nil_all t hdwP
          exact this
        have hallQ : ∀ c ∈ t, (fun c => decide (c ≠ '?')) c = true := fun c hcm => by
          have hgot := hallP c hcm
          simp only [Bool.and_eq_true, decide_eq_true_eq] at hgot
          simp [hgot.1]
        have htwP : t.takeWhile (fun c => (c ≠ '?') && ! isJsWs c) = t := takeWhile_all _ hallP
        have htwQ : t.takeWhile (fun c => c ≠ '?') = t := takeWhile_all _ hallQ
        have hdwQ : ('/' :: t).dropWhile (fun c => c ≠ '?') = [] := by
          rw [List.dropWhile_cons, if_pos (by decide)]
          exact dropWhile_all_nil _ hallQ
        subst hg2
        refine ⟨_, rfl, rfl, rfl, ?_, ?_, ?_, ?_⟩
        · rw [hdwH]
          simp
        · rw [htwH, hdwQ]
          simp
        · rw [htwH, hdwQ]
          simp
        · rw [hg1, htwP, htwH, List.takeWhile_cons, if_pos (by decide), htwQ]
      · have hsplitT : t = t.takeWhile (fun c => (c ≠ '?') && ! isJsWs c) ++ '?' :: q := by
          conv_lhs => rw [← List.takeWhile_append_dropWhile
            (p := fun c => (c ≠ '?') && ! isJsWs c) (l := t)]
          rw [hdwP]
        have hallPA : ∀ c ∈ t.takeWhile (fun c => (c ≠ '?') && ! isJsWs c),
            (fun c => decide (c ≠ '?')) c = true := fun c hcm => by
          have hgot := mem_takeWhile hcm
          simp only [Bool.and_eq_true, decide_eq_true_eq] at hgot
          simp [hgot.1]
        have htwQ : t.takeWhile (fun c => c ≠ '?')
            = t.takeWhile (fun c => (c ≠ '?') && ! isJsWs c) := by
          conv_lhs => rw [hsplitT]
          exact takeWhile_append_stop _ _ hallPA (fun c hcm => by
            simp only [List.head?_cons, Option.some.injEq] at hcm
            subst hcm
            decide)
        have hdwQ : ('/' :: t).dropWhile (fun c => c ≠ '?') = '?' :: q := by
          rw [List.dropWhile_cons, if_pos (by decide)]
          conv_lhs => rw [hsplitT]
          rw [dropWhile_append_all _ _ hallPA]
          rw [List.dropWhile_cons, if_neg (by decide)]
        subst hg2
        refine ⟨_, rfl, rfl, rfl, ?_, ?_, ?_, ?_⟩
        · rw [hdwH]
          simp
        · rw [htwH, hdwQ]
          simp
        · rw [htwH, hdwQ]
          simp
        · rw [hg1, htwH, List.takeWhile_cons, if_pos (by decide), htwQ]

theorem urlFormatL_assembled (u : Url) (p H pn : String) (S Hs : List Char)
    (hproto : u.protocol = some p) (hhost : u.host = some H)
    (hsl : u.slashes = none) (hauth : u.auth = none)
    (hpn : u.pathname = some pn)
    (hsearch : u.search = (if S = [] then none else some (String.mk S)))
    (hhash : u.hash = (if Hs = [] then none else some (String.mk Hs)))
    (hpok : protocolOK p = true) (hslp : isSlashedProto p = true)
    (hHne : H.data ≠ [])
    (hpnh : pn.data.head? = some '/')
    (hpnc : ∀ c ∈ pn.data, c ≠ '?' ∧ c ≠ '#')
    (hS : S = [] ∨ S.head? = some '?')
    (hSnh : '#' ∉ S)
    (hHs : Hs = [] ∨ Hs.head? = some '#') :
    urlFormatL u = p.data ++ ('/' :: '/' :: (H.data ++ (pn.data ++ (S ++ Hs)))) := by
  obtain ⟨hpdata, hpne, hpall⟩ := protocolOK_decomp p hpok
  have hplast : p.data.getLast? = some ':' := by
    conv_lhs => rw [hpdata]
    exact List.getLast?_concat _
  have hpdne : p.data ≠ [] := by
    rw [hpdata]
    simp
  unfold urlFormatL
  rw [hproto, hhost, hsl, hauth, hpn, hsearch, hhash]
  simp only [optStr, Option.getD_some, truthyS]
  rw [show (! H.data.isEmpty) = true by
    cases hd : H.data with
    | nil => exact absurd hd hHne
    | cons a b => rfl]
  rw [if_pos rfl]
  rw [if_neg (by
    intro hcond
    exact hcond.2 hplast)]
  have hcond : ((some true : Option Bool) = some true ∨
      ((p.data = [] ∨ isSlashedProto (String.mk p.data)) ∧
        (some ((([] : List Char)) ++ H.data) ≠ none))) := Or.inl rfl
  rw [if_pos ?hc]
  case hc =>
    right
    constructor
    · right
      show isSlashedProto (String.mk p.data) = true
      have : String.mk p.data = p := rfl
      rw [this]
      exact hslp
    · simp
  rw [if_neg (by
    intro hcond2
    exact absurd hpnh (by simp [hcond2.2.2]))]
  rw [escape_fold_id pn.data hpnc]
  rcases hS with rfl | hSh
  · rcases hHs with rfl | hHsh
    · simp [replaceFirstHashL]
    · cases Hs with
      | nil => exact absurd hHsh (by simp)
      | cons a Hs2 =>
        have ha : a = '#' := by simpa using hHsh
        subst ha
        simp [replaceFirstHashL]
  · cases S with
    | nil => exact absurd hSh (by simp)
    | cons a S2 =>
      have ha : a = '?' := by simpa using hSh
      subst ha
      have hid := replaceFirstHashL_id ('?' :: S2) hSnh
      rcases hHs with rfl | hHsh
      · simp [hid]
      · cases Hs with
        | nil => exact absurd hHsh (by simp)
        | cons b Hs2 =>
          have hb : b = '#' := by simpa using hHsh
          subst hb
          simp [hid]


theorem urlParseCore_assembled (p H pn : String) (S Hs : List Char)
    (hpok : protocolOK p = true) (hslp : isSlashedProto p = true) (hH : hostOK H = true)
    (hpnh : pn.data.head? = some '/')
    (hpnc : ∀ c ∈ pn.data, c ≠ '?' ∧ c ≠ '#')
    (hS : S = [] ∨ S.head? = some '?')
    (hSnh : '#' ∉ S)
    (hHs : Hs = [] ∨ Hs.head? = some '#')
    (hnae : ∀ c ∈ pn.data ++ (S ++ Hs), autoEscapeChar c = false) :
    ∃ res, urlParseCore (p.data ++ ('/' :: '/' :: (H.data ++ (pn.data ++ (S ++ Hs)))))
        = some res ∧
      res.protocol = some p ∧ res.host = some H ∧ res.pathname = some pn ∧
      res.query = (if S = [] then none else some (String.mk (S.drop 1))) := by
  obtain ⟨hpdata, hpne, hpall⟩ := protocolOK_decomp p hpok
  obtain ⟨pd, hpd⟩ : ∃ pd, pn.data = '/' :: pd := by
    cases hpn2 : pn.data with
    | nil => rw [hpn2] at hpnh; exact absurd hpnh (by simp)
    | cons a u =>
      rw [hpn2] at hpnh
      simp only [List.head?_cons, Option.some.injEq] at hpnh
      exact ⟨u, by rw [hpnh]⟩
  have hL : p.data ++ ('/' :: '/' :: (H.data ++ (pn.data ++ (S ++ Hs)))) =
      p.data.dropLast ++ (':' :: ('/' :: '/' :: (H.data ++ (pn.data ++ (S ++ Hs))))) := by
    conv_lhs => rw [hpdata]
    rw [List.append_assoc]
    rfl
  have e1 : (p.data.dropLast ++
      (':' :: ('/' :: '/' :: (H.data ++ (pn.data ++ (S ++ Hs)))))).takeWhile protoChar
        = p.data.dropLast :=
    takeWhile_append_stop _ _ (fun c hc => (protoLowerChar_spec c (hpall c hc)).2.1)
      (fun c hc => by
        simp only [List.head?_cons, Option.some.injEq] at hc
        subst hc
        rfl)
  have e2 : (p.data.dropLast ++
      (':' :: ('/' :: '/' :: (H.data ++ (pn.data ++ (S ++ Hs)))))).drop p.data.dropLast.length
        = ':' :: ('/' :: '/' :: (H.data ++ (pn.data ++ (S ++ Hs)))) := List.drop_left _ _
  have e3 : toLowerL p.data.dropLast = p.data.dropLast :=
    toLowerL_id _ (fun c hc => (protoLowerChar_spec c (hpall c hc)).2.2)
  have e4 : String.mk (p.data.dropLast ++ [':']) = p := by rw [← hpdata]
  have e5 : isHostlessProto p = false := slashed_not_hostless p hslp
  obtain ⟨hn, pt, hps⟩ := parseHostSectionE_clean H (pn.data ++ (S ++ Hs)) hH
    (fun c hc => by
      rw [hpd, List.cons_append] at hc
      simp only [List.head?_cons, Option.some.injEq] at hc
      subst hc
      exact ⟨rfl, rfl⟩)
  have hroute : urlParseCore (p.data ++ ('/' :: '/' :: (H.data ++ (pn.data ++ (S ++ Hs)))))
      = some (urlTail (some p) (some true)
          (none, some H, hn, pt, pn.data ++ (S ++ Hs))) := by
    rw [hL]
    simp only [urlParseCore, e1, e2, e3, e4, e5, hpne]
    simp [e5, hps, hpne]
  have hsat : ∀ c ∈ pn.data ++ S, (fun c => decide (c ≠ '#')) c = true := by
    intro c hc
    rcases List.mem_append.mp hc with hm | hm
    · simp [(hpnc c hm).2]
    · simp only [decide_eq_true_eq]
      intro e
      exact hSnh (e ▸ hm)
  have e6 : (pn.data ++ (S ++ Hs)).takeWhile (fun c => c ≠ '#') = pn.data ++ S := by
    rw [← List.append_assoc]
    rcases hHs with rfl | hHsh
    · rw [List.append_nil]
      exact takeWhile_all _ hsat
    · refine takeWhile_append_stop _ _ hsat (fun c hc => ?_)
      rw [hHsh] at hc
      simp only [Option.some.injEq] at hc
      subst hc
      rfl
  have hsat2 : ∀ c ∈ pn.data, (fun c => decide (c ≠ '?')) c = true := by
    intro c hc
    simp [(hpnc c hc).1]
  have e8 : (pn.data ++ S).takeWhile (fun c => c ≠ '?') = pn.data := by
    rcases hS with rfl | hSh
    · rw [List.append_nil]
      exact takeWhile_all _ hsat2
    · refine takeWhile_append_stop _ _ hsat2 (fun c hc => ?_)
      rw [hSh] at hc
      simp only [Option.some.injEq] at hc
      subst hc
      rfl
  have e9 : (pn.data ++ S).drop pn.data.length = S := List.drop_left _ _
  have e10 : pn.data ≠ [] := by rw [hpd]; simp
  have e11 : String.mk pn.data = pn := rfl
  have e12 : isUnsafeProto p = false := slashed_not_unsafe p hslp
  have e13 : escAuto (pn.data ++ (S ++ Hs)) = pn.data ++ (S ++ Hs) := escAuto_id _ hnae
  refine ⟨_, hroute, rfl, rfl, ?_, ?_⟩
  · simp only [urlTail, e12, e13]
    simp only [ne_eq, decide_not] at e6 e8
    simp [e6, e8, e10, e11]
  · simp only [urlTail, e12, e13]
    simp only [ne_eq, decide_not] at e6 e8
    simp [e6, e8, e9]

/-- C2 counterexample: resolution does not preserve the reference value's own
path for every extracted reference.  For the relative reference
`maps/foo.map` — whose own parse has pathname `maps/foo.map` — the
`url.format`/`url.parse` round trip against a script location with a slashed
protocol and a host prepends `'/'` to the pathname, so the resolved
location's pathname is `/maps/foo.map`, not the reference's own path. -/
theorem c2_counterexample :
    ∃ su, urlParse ("http://localhost:8081/index.ios.bundle") = some su ∧
      getSourceMapRelativeUrl ("//# sourceMappingURL=maps/foo.map")
        = some ("maps/foo.map") ∧
      (urlParse ("maps/foo.map")).map (fun m => m.pathname)
        = some (some ("maps/foo.map")) ∧
      (getSourceMapURL su ("//# sourceMappingURL=maps/foo.map")).map
          (fun r => r.map (fun u => u.pathname))
        = Except.ok (some (some ("/maps/foo.map"))) ∧
      ("maps/foo.map" : String) ≠ ("/maps/foo.map" : String) := by
  refine ⟨_, rfl, rfl, rfl, rfl, ?_⟩
  decide

/-- C2 amended: for every script location whose protocol is a well-formed
slashed protocol value and whose host is a well-formed host value, and every
script body whose extracted reference value starts with `'/'` and contains
neither `'@'` nor any of the characters the legacy url module auto-escapes,
`getSourceMapURL` returns a location whose protocol and host are the script
location's and whose pathname and query are those of the reference value's
own parse. -/
theorem c2_resolution (scriptUrl : Url) (body ref p H : String)
    (h1 : getSourceMapRelativeUrl body = some ref)
    (h2 : ref.data.head? = some '/')
    (h2b : ∀ c ∈ ref.data, autoEscapeChar c = false ∧ c ≠ '@')
    (h3 : scriptUrl.protocol = some p) (h4 : protocolOK p = true)
    (h5 : isSlashedProto p = true)
    (h6 : scriptUrl.host = some H) (h7 : hostOK H = true) :
    ∃ res mref, getSourceMapURL scriptUrl body = Except.ok (some res) ∧
      urlParse ref = some mref ∧
      res.protocol = scriptUrl.protocol ∧ res.host = scriptUrl.host ∧
      res.pathname = mref.pathname ∧ res.query = mref.query := by
  have hloc := h1
  cases hscan : scanSM [] body.data with
  | none =>
    unfold getSourceMapRelativeUrl at h1
    rw [hscan] at h1
    exact absurd h1 (by simp)
  | some quad =>
    obtain ⟨pre, sym, v, r⟩ := quad
    unfold getSourceMapRelativeUrl at h1
    rw [hscan] at h1
    simp only [Option.map_some', Option.some.injEq] at h1
    have hvdata : ref.data = v := by rw [← h1]
    have hv : v.head? = some '/' := by rw [← hvdata]; exact h2
    obtain ⟨t, hvt⟩ : ∃ t2, v = '/' :: t2 := by
      cases hvc : v with
      | nil => rw [hvc] at hv; exact absurd hv (by simp)
      | cons a u =>
        rw [hvc] at hv
        simp only [List.head?_cons, Option.some.injEq] at hv
        exact ⟨u, by rw [hv]⟩
    obtain ⟨mid, tail, hm1, hm2, hm3, hm4⟩ := scanSM_sound body.data [] pre sym v r hscan
    have hsp := lazyVal_spec tail v r hm3
    have hnaw : ¬ ∀ x ∈ tail.takeWhile (fun c => ! isLineTerm c), isJsWs x = true := by
      intro hall
      obtain ⟨w, t2, htl, hvw⟩ := hsp.2 hall
      rw [hvt] at hvw
      have hw : w = '/' := by
        injection hvw with hw1 _
        exact hw1.symm
      subst hw
      have hmem : '/' ∈ tail.takeWhile (fun c => ! isLineTerm c) := by
        rw [htl, List.takeWhile_cons, if_pos (by decide)]
        exact List.mem_cons_self _ _
      exact absurd (hall _ hmem) (by decide)
    have hvtrim : v = jsTrimRightL (tail.takeWhile (fun c => ! isLineTerm c)) := hsp.1 hnaw
    have hvlast : ∀ c, v.getLast? = some c → isJsWs c = false := by
      intro c hc
      rw [hvtrim] at hc
      exact jsTrimRightL_getLast _ c hc
    have hmem_v : ∀ c ∈ ('/' :: t), autoEscapeChar c = false ∧ c ≠ '@' := by
      intro c hcm
      apply h2b
      rw [hvdata, hvt]
      exact hcm
    have hlast_v : ∀ c, ('/' :: t).getLast? = some c → isJsWs c = false := by
      intro c hc
      apply hvlast
      rw [hvt]
      exact hc
    obtain ⟨mref, hprm, hm_sl, hm_auth, hm_hash, hm_search, hm_query, hm_pathname⟩ :=
      urlParse_relative t hmem_v hlast_v
    have hpr2 : urlParse ref = some mref := by
      have hrs : String.mk ('/' :: t) = ref := by
        rw [← hvt, ← hvdata]
      rw [← hrs]
      exact hprm
    have hu_proto : ({mref with protocol := scriptUrl.protocol, host := scriptUrl.host}).protocol = some p := h3
    have hu_host : ({mref with protocol := scriptUrl.protocol, host := scriptUrl.host}).host = some H := h6
    have hu_sl : ({mref with protocol := scriptUrl.protocol, host := scriptUrl.host}).slashes = none := hm_sl
    have hu_auth : ({mref with protocol := scriptUrl.protocol, host := scriptUrl.host}).auth = none := hm_auth
    have hu_pn : ({mref with protocol := scriptUrl.protocol, host := scriptUrl.host}).pathname = some (String.mk
          ((('/' :: t).takeWhile (fun c => c ≠ '#')).takeWhile (fun c => c ≠ '?'))) :=
      hm_pathname
    have hu_search : ({mref with protocol := scriptUrl.protocol, host := scriptUrl.host}).search =
          (if (('/' :: t).takeWhile (fun c => c ≠ '#')).dropWhile (fun c => c ≠ '?') = []
           then none
           else some (String.mk
             ((('/' :: t).takeWhile (fun c => c ≠ '#')).dropWhile (fun c => c ≠ '?')))) :=
      hm_search
    have hu_hash : ({mref with protocol := scriptUrl.protocol, host := scriptUrl.host}).hash =
          (if ('/' :: t).dropWhile (fun c => c ≠ '#') = [] then none
           else some (String.mk (('/' :: t).dropWhile (fun c => c ≠ '#')))) := hm_hash
    have hHne : H.data ≠ [] := hostOK_ne_nil H h7
    have hpnh : (String.mk ((('/' :: t).takeWhile (fun c => c ≠ '#')).takeWhile
        (fun c => c ≠ '?'))).data.head? = some '/' := by
      show ((('/' :: t).takeWhile (fun c => c ≠ '#')).takeWhile (fun c => c ≠ '?')).head?
        = some '/'
      rw [List.takeWhile_cons, if_pos (by decide), List.takeWhile_cons, if_pos (by decide)]
      rfl
    have hpnc : ∀ c ∈ (String.mk ((('/' :: t).takeWhile (fun c => c ≠ '#')).takeWhile
        (fun c => c ≠ '?'))).data, c ≠ '?' ∧ c ≠ '#' := by
      intro c hc
      constructor
      · have := mem_takeWhile hc
        simpa using this
      · have := mem_takeWhile (mem_of_mem_takeWhile hc)
        simpa using this
    have hSor : (('/' :: t).takeWhile (fun c => c ≠ '#')).dropWhile (fun c => c ≠ '?') = [] ∨
        ((('/' :: t).takeWhile (fun c => c ≠ '#')).dropWhile (fun c => c ≠ '?')).head?
          = some '?' := by
      cases hcS : (('/' :: t).takeWhile (fun c => c ≠ '#')).dropWhile (fun c => c ≠ '?') with
      | nil => exact Or.inl rfl
      | cons a u =>
        refine Or.inr ?_
        have := head_dropWhile (p := fun c => decide (c ≠ '?'))
          (('/' :: t).takeWhile (fun c => c ≠ '#')) a (by rw [hcS]; rfl)
        simp only [decide_eq_false_iff_not, not_not] at this
        rw [this]
        rfl
    have hSnh : '#' ∉ (('/' :: t).takeWhile (fun c => c ≠ '#')).dropWhile
        (fun c => c ≠ '?') := by
      intro hmem
      have := mem_takeWhile ((List.dropWhile_sublist _).subset hmem)
      simp at this
    have hHsor : ('/' :: t).dropWhile (fun c => c ≠ '#') = [] ∨
        (('/' :: t).dropWhile (fun c => c ≠ '#')).head? = some '#' := by
      cases hcH : ('/' :: t).dropWhile (fun c => c ≠ '#') with
      | nil => exact Or.inl rfl
      | cons a u =>
        refine Or.inr ?_
        have := head_dropWhile (p := fun c => decide (c ≠ '#')) ('/' :: t) a
          (by rw [hcH]; rfl)
        simp only [decide_eq_false_iff_not, not_not] at this
        rw [this]
        rfl
    have hF := urlFormatL_assembled
      {mref with protocol := scriptUrl.protocol, host := scriptUrl.host} p H
      (String.mk ((('/' :: t).takeWhile (fun c => c ≠ '#')).takeWhile (fun c => c ≠ '?')))
      ((('/' :: t).takeWhile (fun c => c ≠ '#')).dropWhile (fun c => c ≠ '?'))
      (('/' :: t).dropWhile (fun c => c ≠ '#'))
      hu_proto hu_host hu_sl hu_auth hu_pn hu_search hu_hash h4 h5 hHne hpnh hpnc
      hSor hSnh hHsor
    have hW : (String.mk ((('/' :: t).takeWhile (fun c => c ≠ '#')).takeWhile
        (fun c => c ≠ '?'))).data ++
          (((('/' :: t).takeWhile (fun c => c ≠ '#')).dropWhile (fun c => c ≠ '?')) ++
            (('/' :: t).dropWhile (fun c => c ≠ '#'))) = '/' :: t := by
      show ((('/' :: t).takeWhile (fun c => c ≠ '#')).takeWhile (fun c => c ≠ '?')) ++ _ = _
      rw [← List.append_assoc, List.takeWhile_append_dropWhile, List.takeWhile_append_dropWhile]
    obtain ⟨hpdata, hpne, hpall⟩ := protocolOK_decomp p h4
    have hbig_trim : jsTrimL (p.data ++ ('/' :: '/' :: (H.data ++
        ((String.mk ((('/' :: t).takeWhile (fun c => c ≠ '#')).takeWhile
          (fun c => c ≠ '?'))).data ++
          (((('/' :: t).takeWhile (fun c => c ≠ '#')).dropWhile (fun c => c ≠ '?')) ++
            (('/' :: t).dropWhile (fun c => c ≠ '#'))))))) = p.data ++ ('/' :: '/' :: (H.data ++
        ((String.mk ((('/' :: t).takeWhile (fun c => c ≠ '#')).takeWhile
          (fun c => c ≠ '?'))).data ++
          (((('/' :: t).takeWhile (fun c => c ≠ '#')).dropWhile (fun c => c ≠ '?')) ++
            (('/' :: t).dropWhile (fun c => c ≠ '#')))))) := by
      apply jsTrimL_id
      · intro c hc
        cases hdl : p.data.dropLast with
        | nil => exact absurd hdl hpne
        | cons b bs =>
          rw [show p.data = b :: (bs ++ [':']) by rw [hpdata, hdl]; rfl] at hc
          rw [List.cons_append, List.head?_cons] at hc
          simp only [Option.some.injEq] at hc
          subst hc
          exact (protoLowerChar_spec b (hpall b (by rw [hdl]; exact List.mem_cons_self _ _))).1
      · intro c hc
        rw [hW] at hc
        have hasc : p.data ++ ('/' :: '/' :: (H.data ++ ('/' :: t))) =
            (p.data ++ ('/' :: '/' :: H.data)) ++ ('/' :: t) := by
          rw [List.append_assoc]
          rfl
        rw [hasc, getLast?_append_ne _ _ (by simp), ← hvt] at hc
        exact hvlast c hc
    have hsd : (urlFormat {mref with protocol := scriptUrl.protocol, host := scriptUrl.host}).data = p.data ++ ('/' :: '/' :: (H.data ++
        ((String.mk ((('/' :: t).takeWhile (fun c => c ≠ '#')).takeWhile
          (fun c => c ≠ '?'))).data ++
          (((('/' :: t).takeWhile (fun c => c ≠ '#')).dropWhile (fun c => c ≠ '?')) ++
            (('/' :: t).dropWhile (fun c => c ≠ '#')))))) := hF
    have hbsBIG : '\\' ∉ (urlFormat {mref with protocol := scriptUrl.protocol, host := scriptUrl.host}).data := by
      rw [hsd]
      intro hmem
      rcases List.mem_append.mp hmem with hp1 | hp2
      · rw [hpdata] at hp1
        rcases List.mem_append.mp hp1 with hp3 | hp3
        · exact absurd rfl ((protoLowerChar_more _ (hpall _ hp3)).2)
        · simp at hp3
      · rcases List.mem_cons.mp hp2 with he | hp3
        · exact absurd he (by decide)
        · rcases List.mem_cons.mp hp3 with he | hp4
          · exact absurd he (by decide)
          · rcases List.mem_append.mp hp4 with hH1 | hrest
            · have hsp2 := hostTokenChar_spec _ (hostOK_mem H h7 _ hH1)
              exact absurd hsp2.2.1 (by decide)
            · rw [hW] at hrest
              exact absurd ((hmem_v _ hrest).1) (by decide)
    have hbfBIG : backslashFixL (urlFormat {mref with protocol := scriptUrl.protocol, host := scriptUrl.host}).data = p.data ++ ('/' :: '/' :: (H.data ++
        ((String.mk ((('/' :: t).takeWhile (fun c => c ≠ '#')).takeWhile
          (fun c => c ≠ '?'))).data ++
          (((('/' :: t).takeWhile (fun c => c ≠ '#')).dropWhile (fun c => c ≠ '?')) ++
            (('/' :: t).dropWhile (fun c => c ≠ '#')))))) := by
      rw [backslashFix_id _ hbsBIG]
      exact hsd
    have hspBIG : simplePath (p.data ++ ('/' :: '/' :: (H.data ++
        ((String.mk ((('/' :: t).takeWhile (fun c => c ≠ '#')).takeWhile
          (fun c => c ≠ '?'))).data ++
          (((('/' :: t).takeWhile (fun c => c ≠ '#')).dropWhile (fun c => c ≠ '?')) ++
            (('/' :: t).dropWhile (fun c => c ≠ '#'))))))) = none := by
      cases hdl : p.data.dropLast with
      | nil => exact absurd hdl hpne
      | cons b bs =>
        have hBIGc : p.data ++ ('/' :: '/' :: (H.data ++
            ((String.mk ((('/' :: t).takeWhile (fun c => c ≠ '#')).takeWhile
              (fun c => c ≠ '?'))).data ++
              (((('/' :: t).takeWhile (fun c => c ≠ '#')).dropWhile (fun c => c ≠ '?')) ++
                (('/' :: t).dropWhile (fun c => c ≠ '#')))))) =
            b :: ((bs ++ [':']) ++ ('/' :: '/' :: (H.data ++
            ((String.mk ((('/' :: t).takeWhile (fun c => c ≠ '#')).takeWhile
              (fun c => c ≠ '?'))).data ++
              (((('/' :: t).takeWhile (fun c => c ≠ '#')).dropWhile (fun c => c ≠ '?')) ++
                (('/' :: t).dropWhile (fun c => c ≠ '#'))))))) := by
          conv_lhs => rw [show p.data = b :: (bs ++ [':']) from by rw [hpdata, hdl]; rfl]
          rfl
        rw [hBIGc]
        exact simplePath_not_slash b _
          ((protoLowerChar_more b (hpall b (by rw [hdl]; exact List.mem_cons_self _ _))).1)
    have hroute : urlParse (urlFormat {mref with protocol := scriptUrl.protocol, host := scriptUrl.host}) = urlParseCore (p.data ++ ('/' :: '/' :: (H.data ++
        ((String.mk ((('/' :: t).takeWhile (fun c => c ≠ '#')).takeWhile
          (fun c => c ≠ '?'))).data ++
          (((('/' :: t).takeWhile (fun c => c ≠ '#')).dropWhile (fun c => c ≠ '?')) ++
            (('/' :: t).dropWhile (fun c => c ≠ '#'))))))) := by
      rw [urlParse_core_route _ (by rw [hbfBIG, hbig_trim]; exact hspBIG), hbfBIG, hbig_trim]
    have hnae : ∀ c ∈ (String.mk ((('/' :: t).takeWhile (fun c => c ≠ '#')).takeWhile
        (fun c => c ≠ '?'))).data ++
          (((('/' :: t).takeWhile (fun c => c ≠ '#')).dropWhile (fun c => c ≠ '?')) ++
            (('/' :: t).dropWhile (fun c => c ≠ '#'))), autoEscapeChar c = false := by
      intro c hcm
      rw [hW] at hcm
      exact (hmem_v c hcm).1
    obtain ⟨res0, hresEq, hr_proto, hr_host, hr_pathname, hr_query⟩ :=
      urlParseCore_assembled p H
        (String.mk ((('/' :: t).takeWhile (fun c => c ≠ '#')).takeWhile (fun c => c ≠ '?')))
        ((('/' :: t).takeWhile (fun c => c ≠ '#')).dropWhile (fun c => c ≠ '?'))
        (('/' :: t).dropWhile (fun c => c ≠ '#'))
        h4 h5 h7 hpnh hpnc hSor hSnh hHsor hnae
    have hchain : urlParse (urlFormat {mref with protocol := scriptUrl.protocol, host := scriptUrl.host}) = some res0 := hroute.trans hresEq
    refine ⟨res0, mref, ?_, hpr2, ?_, ?_, ?_, ?_⟩
    · simp only [getSourceMapURL, hloc, hpr2, hchain]
    · rw [hr_proto, h3]
    · rw [hr_host, h6]
    · rw [hr_pathname, hm_pathname]
    · rw [hr_query, hm_query]

/-- Witness for C2: script location
http://localhost:8081/index.ios.bundle?platform=ios&dev=true with reference
comment value /index.ios.map?platform=ios resolves to a location carrying the
script's protocol and host and the reference's own pathname and query. -/
theorem c2_resolution_witness :
    ∃ su, urlParse ("http://localhost:8081/index.ios.bundle?platform=ios&dev=true")
        = some su ∧
      ∃ res mref,
        getSourceMapURL su ("//# sourceMappingURL=/index.ios.map?platform=ios")
          = Except.ok (some res) ∧
        urlParse ("/index.ios.map?platform=ios") = some mref ∧
        res.protocol = su.protocol ∧ res.host = su.host ∧
        res.pathname = mref.pathname ∧ res.query = mref.query :=
  ⟨_, rfl, c2_resolution _ ("//# sourceMappingURL=/index.ios.map?platform=ios")
    ("/index.ios.map?platform=ios") ("http:") ("localhost:8081")
    rfl rfl (by decide) rfl rfl rfl rfl rfl⟩
